import Mathlib

/-!
Verification of the mock-execution engine of the `backend-mock` repository.

The definitions below are a shallow embedding of the JavaScript source:

* `utils/execution.js` — `matchPath`, `evaluateCondition`,
  `responseMatchesConditions`, `pickResponse` (pure helpers);
* `routes/m.js` — `findMatchingMock`, the `/:projectSlug/{*path}` execution
  handler and the `/:projectSlug` fallback route.

Modelling conventions:

* JavaScript strings are Lean `String`s / `List Char`s; objects used as maps
  are association lists (first binding wins, as JS object keys are unique).
* `undefined`/absent values are `Option.none`.
* Machine floats from `Math.random()` are modelled as an explicit rational
  `roll` parameter (the draw in `[0,1)` becomes an argument).
* Exceptions are modelled by `Option`: a function that can throw returns
  `none` exactly when the JS code would throw.
* `new RegExp`/`.match`/`.test` are modelled by an executable ECMAScript
  regex subset below: literals, `\c` escapes of non-alphanumeric characters,
  character classes of plain characters (`[...]`, `[^...]`), `.`, groups
  `(...)`, greedy `* + ?`, alternation `|`, and the `^`/`$` anchors — i.e.
  every construct `matchPath` generates plus those exercised by the claims.
  Constructs outside the subset (lazy quantifiers, `(?`-groups, class
  ranges/escapes, `\w`-style escapes, brace quantifiers) make the parser
  return `none` (modelled as `new RegExp` throwing); stray `{`, `}`, `]`
  are treated as literal characters, as in ECMAScript Annex B.
-/

/-- One declarative condition `{type, field, operator, value}` as stored on a
response (well-formed shape: all four fields present strings). -/
structure Condition where
  type : String
  field : String
  operator : String
  value : String
  deriving DecidableEq, Repr

/-- The `conditions` column of a response after the read-side decoding that
`responseMatchesConditions` performs.  `arr cs` is a JSON array of well-formed
conditions; `nonArr` covers every other stored value — `undefined`/`null`
(falsy, replaced by `[]`), a JSON string that fails to parse (caught, replaced
by `[]`) and a parsed non-array value (rejected by the `Array.isArray` check).
All of those collapse to the neutral `{matches: true, hasConditions: false}`
in the source, which is why one constructor suffices for them. -/
inductive CondsField where
  | arr (cs : List Condition)
  | nonArr
  deriving DecidableEq, Repr

/-- A row of `mock_responses` (fields the execution engine reads). -/
structure MockResponse where
  response_id : String
  mock_id : String
  status_code : Nat
  body : String
  is_default : Option Int
  weight : Option Nat
  conditions : CondsField
  created_at : Nat
  deriving DecidableEq, Repr

/-- A row of `mocks` (fields the execution engine reads). -/
structure Mock where
  mock_id : String
  project_id : String
  path : String
  method : String
  is_active : Int
  deriving DecidableEq, Repr

/-- A row of `projects` (fields the execution engine reads). -/
structure Project where
  project_id : String
  slug : String
  deriving DecidableEq, Repr

/-- The request body as the condition evaluator sees it: `bObj` is a parsed
key-value object; `bUndef`, `bNull` and `bStr` are the non-object cases
(`typeof req.body === 'object' && req.body !== null` fails on them — `bStr`
also stands for the other non-object primitives). -/
inductive JsBody where
  | bUndef
  | bNull
  | bStr (s : String)
  | bObj (kv : List (String × String))
  deriving DecidableEq, Repr

/-- The request-shaped object consumed by the pure helpers
(`{ headers, query, body }`). -/
structure Req where
  headers : List (String × String)
  query : List (String × String)
  body : JsBody
  deriving DecidableEq, Repr

/-- Extracted path parameters: `{name: capturedString}` in declaration order.
A capture can be `none` when its group did not participate in the match
(JS `undefined`). -/
abbrev Params := List (String × Option String)

/-- `String.prototype.toLowerCase` (simple case mapping, as for the
locale-independent JS method on the characters that occur here). -/
def jsToLower (s : String) : String :=
  String.mk (s.data.map Char.toLower)

/-- `String.prototype.toUpperCase` (simple case mapping). -/
def jsToUpper (s : String) : String :=
  String.mk (s.data.map Char.toUpper)

/-! ## ECMAScript regex subset -/

/-- Abstract syntax of the supported regex subset. -/
inductive RE where
  | eps
  | lit (c : Char)
  | cls (neg : Bool) (cs : List Char)
  | dot
  | bol
  | eol
  | seq (a b : RE)
  | alt (a b : RE)
  | star (a : RE)
  | plus (a : RE)
  | opt (a : RE)
  | grp (n : Nat) (a : RE)
  deriving DecidableEq, Repr

/-- Capture environment: `(groupNumber, startPos, endPos)` entries, most
recent first (re-entering a group overwrites, as in ECMAScript). -/
abbrev Caps := List (Nat × Nat × Nat)

/-- ECMAScript line terminators (which `.` does not match). -/
def lineTerm : List Char := ['\n', '\r', Char.ofNat 0x2028, Char.ofNat 0x2029]

/-- Greedy iteration of one step function `f` (the backtracking alternatives
of `a*` at a position, longest-first).  Iterations are required to make
progress — ECMAScript cuts a quantifier loop once an iteration matches
empty — so `fuel ≥ input.length + 1 - p` never runs out. -/
def starLoop (f : Nat → Caps → List (Nat × Caps)) : Nat → Nat → Caps → List (Nat × Caps)
  | 0, p, k => [(p, k)]
  | fuel + 1, p, k =>
      ((f p k).filter (fun q => p < q.1)).flatMap (fun q => starLoop f fuel q.1 q.2)
        ++ [(p, k)]

/-- Backtracking matcher: all ways `r` can match a prefix of `input` starting
at position `p`, as `(endPosition, captures)` pairs in ECMAScript priority
order (the engine's result is the head). -/
def reMatch (input : List Char) : RE → Nat → Caps → List (Nat × Caps)
  | .eps, p, k => [(p, k)]
  | .lit c, p, k =>
      match input[p]? with
      | some x => if x = c then [(p + 1, k)] else []
      | none => []
  | .cls neg cs, p, k =>
      match input[p]? with
      | some x => if (cs.contains x) ≠ neg then [(p + 1, k)] else []
      | none => []
  | .dot, p, k =>
      match input[p]? with
      | some x => if lineTerm.contains x then [] else [(p + 1, k)]
      | none => []
  | .bol, p, k => if p = 0 then [(p, k)] else []
  | .eol, p, k => if p = input.length then [(p, k)] else []
  | .seq a b, p, k => (reMatch input a p k).flatMap (fun q => reMatch input b q.1 q.2)
  | .alt a b, p, k => reMatch input a p k ++ reMatch input b p k
  | .star a, p, k => starLoop (reMatch input a) (input.length + 1 - p) p k
  | .plus a, p, k =>
      (reMatch input a p k).flatMap (fun q =>
        if p < q.1 then starLoop (reMatch input a) (input.length + 1 - q.1) q.1 q.2
        else [q])
  | .opt a, p, k => reMatch input a p k ++ [(p, k)]
  | .grp n a, p, k => (reMatch input a p k).map (fun q => (q.1, (n, p, q.1) :: q.2))

/-- `regex.exec(str)` / non-global `str.match(regex)`: try each start
position left to right, return the first position with a match together with
the priority match's captures. -/
def reSearch (r : RE) (input : List Char) : Option (Nat × Caps) :=
  (List.range (input.length + 1)).findSome? (fun p =>
    match reMatch input r p [] with
    | [] => none
    | q :: _ => some (p, q.2))

/-! ### Parser for the regex subset

Mutually recursive descent (`alternation ≥ sequence ≥ item ≥ atom`) with an
explicit fuel argument decremented on every call, so that all four functions
are structurally recursive and reduce in the kernel.  `none` models
`new RegExp` throwing a `SyntaxError`. -/

/-- Parsing mode: alternation, sequence, quantified item, or atom level of
the recursive descent. -/
inductive PMode where
  | alt
  | sq
  | item
  | atom
  deriving DecidableEq, Repr

/-- One four-level recursive-descent parser, fuelled so that it is
structurally recursive (the fuel drops by one on every call; `parseRegex`
supplies more than enough).  Returns the parsed expression, the next free
capture-group number, and the unconsumed input. -/
def parseStep : Nat → PMode → Nat → List Char → Option (RE × Nat × List Char)
  | 0, _, _, _ => none
  | fuel + 1, .alt, g, l =>
      match parseStep fuel .sq g l with
      | none => none
      | some (r, g1, l1) =>
          match l1 with
          | '|' :: rest =>
              match parseStep fuel .alt g1 rest with
              | none => none
              | some (r2, g2, l2) => some (.alt r r2, g2, l2)
          | _ => some (r, g1, l1)
  | fuel + 1, .sq, g, l =>
      match l with
      | [] => some (.eps, g, [])
      | ')' :: _ => some (.eps, g, l)
      | '|' :: _ => some (.eps, g, l)
      | _ =>
          match parseStep fuel .item g l with
          | none => none
          | some (r, g1, l1) =>
              match parseStep fuel .sq g1 l1 with
              | none => none
              | some (r2, g2, l2) => some (.seq r r2, g2, l2)
  | fuel + 1, .item, g, l =>
      match parseStep fuel .atom g l with
      | none => none
      | some (a, g1, l1) =>
          match l1 with
          | '*' :: rest => some (.star a, g1, rest)
          | '+' :: rest => some (.plus a, g1, rest)
          | '?' :: rest => some (.opt a, g1, rest)
          | _ => some (a, g1, l1)
  | fuel + 1, .atom, g, l =>
      match l with
      | [] => none
      | '(' :: '?' :: _ => none
      | '(' :: rest =>
          match parseStep fuel .alt (g + 1) rest with
          | none => none
          | some (r, g1, l1) =>
              match l1 with
              | ')' :: l2 => some (.grp g r, g1, l2)
              | _ => none
      | '[' :: rest =>
          match (match rest with | '^' :: t => (true, t) | _ => (false, rest)) with
          | (neg, rest1) =>
              match rest1.drop ((rest1.takeWhile (fun c => c ≠ ']' ∧ c ≠ '\\')).length) with
              | ']' :: rest2 =>
                  some (.cls neg (rest1.takeWhile (fun c => c ≠ ']' ∧ c ≠ '\\')), g, rest2)
              | _ => none
      | '\\' :: c :: rest => if c.isAlphanum then none else some (.lit c, g, rest)
      | '\\' :: [] => none
      | '^' :: rest => some (.bol, g, rest)
      | '$' :: rest => some (.eol, g, rest)
      | '.' :: rest => some (.dot, g, rest)
      | '*' :: _ => none
      | '+' :: _ => none
      | '?' :: _ => none
      | ')' :: _ => none
      | c :: rest => some (.lit c, g, rest)

/-- `new RegExp(s)` over the subset: parse the whole pattern (capture groups
numbered from 1 in order of `(`); any leftover input — e.g. a stray `)` —
or unsupported construct throws, i.e. yields `none`. -/
def parseRegex (l : List Char) : Option RE :=
  match parseStep (4 * l.length + 8) .alt 1 l with
  | some (r, _, []) => some r
  | _ => none

/-- `new RegExp(v).test(s)` wrapped in the source's `try { … } catch
{ return false }`: an unparseable pattern yields `false`. -/
def jsRegexTest (v : String) (s : String) : Bool :=
  match parseRegex v.data with
  | none => false
  | some r => (reSearch r s.data).isSome

/-! ## `matchPath` (utils/execution.js, routes/m.js) -/

/-- The scan performed by `pattern.replace(/{([^}]+)}/g, …)`: a state machine
equivalent to the global leftmost-greedy regex replacement.  `none` state:
outside a brace; `some buf` state: after an unclosed `{`, `buf` holding the
(reversed) characters read since.  On `}` with a non-empty buffer, the
placeholder is replaced by `([^/]+)` and its name recorded; `{}` and an
unclosed trailing `{` stay literal, exactly as the regex finds no match
there.  Returns the placeholder names in order and the replaced text. -/
def scanAux : Option (List Char) → List Char → List String × List Char
  | none, [] => ([], [])
  | some buf, [] => ([], '{' :: buf.reverse)
  | none, c :: rest =>
      if c = '{' then scanAux (some []) rest
      else
        match scanAux none rest with
        | (ns, out) => (ns, c :: out)
  | some buf, c :: rest =>
      if c = '}' then
        if buf.isEmpty then
          match scanAux none rest with
          | (ns, out) => (ns, '{' :: '}' :: out)
        else
          match scanAux none rest with
          | (ns, out) => (String.mk buf.reverse :: ns, "([^/]+)".data ++ out)
      else scanAux (some (c :: buf)) rest

/-- `regexStr.replace(/\./g, '\\.')`: escape every dot of the already
placeholder-replaced pattern. -/
def escapeDots (l : List Char) : List Char :=
  l.flatMap (fun c => if c = '.' then ['\\', '.'] else [c])

/-- Read capture group `i` from the environment (most recent entry wins). -/
def capLookup (caps : Caps) (i : Nat) : Option (Nat × Nat) :=
  (caps.find? (fun e => e.1 == i)).map (fun e => e.2)

/-- The text of `input` between positions `a` and `b`. -/
def sliceStr (input : List Char) (a b : Nat) : String :=
  String.mk ((input.take b).drop a)

/-- `params[name] = match[i + 1]` for each placeholder name in order
(group numbers start at 1). -/
def buildParams (input : List Char) (caps : Caps) : Nat → List String → Params
  | _, [] => []
  | i, n :: ns =>
      (n, (capLookup caps i).map (fun se => sliceStr input se.1 se.2))
        :: buildParams input caps (i + 1) ns

/-- A `matchPath` result `{ isMatch, params }`. -/
structure MatchResult where
  isMatch : Bool
  params : Params
  deriving DecidableEq, Repr

/-- The match-and-extract step of `matchPath` once the regex compiled:
`actualPath.match(regex)` and the `paramNames.forEach` loop building
`params`. -/
def matchRun (r : RE) (input : List Char) (names : List String) : MatchResult :=
  match reSearch r input with
  | none => ⟨false, []⟩
  | some (_, caps) => ⟨true, buildParams input caps 1 names⟩

/-- `matchPath(pattern, actualPath)` from `utils/execution.js`: replace each
`{name}` placeholder by `([^/]+)` (collecting names), escape dots, compile
`^…$` and match the actual path.  `none` models the uncaught exception when
`new RegExp` rejects the generated pattern. -/
def matchPath (pattern actualPath : String) : Option MatchResult :=
  match parseRegex ('^' :: (escapeDots (scanAux none pattern.data).2 ++ ['$'])) with
  | none => none
  | some r => some (matchRun r actualPath.data (scanAux none pattern.data).1)

/-! ## Condition evaluation (utils/execution.js) -/

/-- The `switch (type)` of `evaluateCondition` that resolves the "actual"
value: header lookup on the lowercased field, query lookup, body lookup when
the body is a non-null object, path-parameter lookup.  `none` is JS
`undefined`/`null`. -/
def resolveActual (c : Condition) (req : Req) (pathParams : Params) : Option String :=
  if c.type = "header" then (req.headers.lookup (jsToLower c.field))
  else if c.type = "query" then (req.query.lookup c.field)
  else if c.type = "body" then
    match req.body with
    | .bObj kv => kv.lookup c.field
    | _ => none
  else if c.type = "path" then ((pathParams.lookup c.field).join)
  else none

/-- `evaluateCondition(condition, req, pathParams)`: resolve the actual value
(unknown `type` → `false`), fail when it is absent, then apply the operator
(`equals` / `contains` / `regex`; unknown operator → `false`; an invalid
regex is caught and yields `false`).  The actual values are already strings,
so `String(actual)` is the identity here. -/
def evaluateCondition (c : Condition) (req : Req) (pathParams : Params) : Bool :=
  if c.type ≠ "header" ∧ c.type ≠ "query" ∧ c.type ≠ "body" ∧ c.type ≠ "path" then
    false
  else
    match resolveActual c req pathParams with
    | none => false
    | some actual =>
        if c.operator = "equals" then actual = c.value
        else if c.operator = "contains" then decide (c.value.data <:+: actual.data)
        else if c.operator = "regex" then jsRegexTest c.value actual
        else false

/-- `responseMatchesConditions(response, req, pathParams)`: decode the stored
`conditions` (anything that is not an array of conditions degrades to `[]`,
see `CondsField`); an empty list is neutral (`matches` without
`hasConditions`), otherwise every condition must hold. -/
def responseMatchesConditions (resp : MockResponse) (req : Req) (pathParams : Params) :
    Bool × Bool :=
  match resp.conditions with
  | .arr [] => (true, false)
  | .arr cs => (cs.all (fun c => evaluateCondition c req pathParams), true)
  | .nonArr => (true, false)

/-! ## Response selection (utils/execution.js `pickResponse`) -/

/-- The `conditionalMatches` pool: responses with a non-empty condition list
in which every condition holds (loop order preserved). -/
def conditionalMatches (responses : List MockResponse) (req : Req) (pp : Params) :
    List MockResponse :=
  responses.filter (fun r => responseMatchesConditions r req pp = (true, true))

/-- The `unconditioned` pool: responses without conditions. -/
def unconditioned (responses : List MockResponse) (req : Req) (pp : Params) :
    List MockResponse :=
  responses.filter (fun r => (responseMatchesConditions r req pp).2 = false)

/-- `pool`/`candidates` of `pickResponse`: conditional matches if any, else
unconditioned responses, else the full original list. -/
def candidates (responses : List MockResponse) (req : Req) (pp : Params) :
    List MockResponse :=
  let cm := conditionalMatches responses req pp
  let uc := unconditioned responses req pp
  let pool := if cm.isEmpty then uc else cm
  if pool.isEmpty then responses else pool

/-- `r.weight || 0` summed over the pool. -/
def totalWeight (l : List MockResponse) : Nat :=
  (l.map (fun r => r.weight.getD 0)).sum

/-- The weighted walk: subtract each weight from the roll and return the
first response at which the remainder becomes `≤ 0`; `none` when the loop
falls through. -/
def weightWalk : List MockResponse → ℚ → Option MockResponse
  | [], _ => none
  | r :: rest, roll =>
      if roll - (r.weight.getD 0 : ℚ) ≤ 0 then some r
      else weightWalk rest (roll - (r.weight.getD 0 : ℚ))

/-- JS truthy-fallback `x || y` on option values (objects are truthy). -/
def jsOr {α : Type} : Option α → Option α → Option α
  | some a, _ => some a
  | none, y => y

/-- `pickResponse(responses, req, pathParams)` with the `Math.random()` draw
made explicit as `roll ∈ [0,1)`: `null` for an empty (or, in JS, missing)
list, the sole element of a singleton, otherwise weighted-random selection in
the candidate pool — deterministic default-or-first when the total weight is
zero, and the last pool member as the fallback of the walk. -/
def pickResponse (responses : List MockResponse) (req : Req) (pp : Params) (roll : ℚ) :
    Option MockResponse :=
  match responses with
  | [] => none
  | [r] => some r
  | _ =>
      let cands := candidates responses req pp
      if cands.length = 1 then cands.head?
      else if totalWeight cands = 0 then
        jsOr (cands.find? (fun r => r.is_default == some 1)) cands.head?
      else
        jsOr (weightWalk cands (roll * (totalWeight cands : ℚ))) cands.getLast?

/-! ## Mock resolution (routes/m.js `findMatchingMock`)

The two SQL queries are modelled over the mock table as a list in row order:
a `WHERE` clause is a filter and `rows[0]` is the head.  `ORDER BY
LENGTH(path) DESC` is modelled by a stable insertion sort on descending path
length (SQLite leaves the relative order of equal-length rows unspecified;
the theorems below only use tie-independent facts). -/

/-- Insert a mock into a descending-by-path-length sorted list (stable). -/
def insertMockDesc (m : Mock) : List Mock → List Mock
  | [] => [m]
  | x :: xs =>
      if m.path.length < x.path.length then x :: insertMockDesc m xs
      else m :: x :: xs

/-- `ORDER BY LENGTH(path) DESC` as a stable insertion sort. -/
def sortByLenDesc (l : List Mock) : List Mock :=
  l.foldr insertMockDesc []

/-- The row filter of the exact-match query:
`project_id = ? AND path = ? AND method = ? AND is_active = 1`. -/
def exactPred (projectId requestPath method : String) (k : Mock) : Bool :=
  k.project_id == projectId && k.path == requestPath && k.method == method
    && k.is_active == 1

/-- The row filter of the template query:
`project_id = ? AND method = ? AND is_active = 1`. -/
def activePred (projectId method : String) (k : Mock) : Bool :=
  k.project_id == projectId && k.method == method && k.is_active == 1

/-- The `for … of allMocks.rows` loop: skip paths without `{`, return the
first template whose `matchPath` is a match, together with its parameters.
The outer `none` propagates a `matchPath` exception, `some none` is the
`return null`. -/
def scanTemplates (requestPath : String) : List Mock → Option (Option (Mock × Params))
  | [] => some none
  | k :: rest =>
      if k.path.data.contains '{' then
        match matchPath k.path requestPath with
        | none => none
        | some r => if r.isMatch then some (some (k, r.params)) else scanTemplates requestPath rest
      else scanTemplates requestPath rest

/-- `findMatchingMock(projectId, requestPath, method)` from `routes/m.js`
over the mock table `mocks`: exact match first (returned with empty
`pathParams`), then the length-ordered template scan. -/
def findMatchingMock (mocks : List Mock) (projectId requestPath method : String) :
    Option (Option (Mock × Params)) :=
  match mocks.filter (exactPred projectId requestPath method) with
  | k :: _ => some (some (k, []))
  | [] => scanTemplates requestPath (sortByLenDesc (mocks.filter (activePred projectId method)))

/-! ## The execution handler (routes/m.js) -/

/-- One `request_logs` insert attempted by `logRequest` (the fields the
claims are about; the insert's own failures are caught inside `logRequest`
and cannot affect the handler). -/
structure LogEntry where
  mockId : Option String
  projectId : Option String
  responseStatus : Nat
  responseTimeMs : Nat
  deriving DecidableEq, Repr

/-- Terminal outcome of one handler run. -/
inductive ExecResult where
  | preflight
  | emitted (status : Nat) (body : String)
  | errorOut (code : String) (status : Nat)
  deriving DecidableEq, Repr

/-- Handler outcome together with the request-log writes it issued. -/
structure ExecOutcome where
  result : ExecResult
  logs : List LogEntry
  deriving DecidableEq, Repr

/-- The read-only data snapshot the handler consumes. -/
structure Store where
  projects : List Project
  mocks : List Mock
  responses : List MockResponse
  deriving DecidableEq, Repr

/-- Row order of `ORDER BY is_default DESC, created_at ASC` (SQLite:
`NULL` sorts below every integer, hence last under `DESC`). -/
def respLE (a b : MockResponse) : Bool :=
  match a.is_default, b.is_default with
  | some x, some y => if x = y then a.created_at ≤ b.created_at else decide (y < x)
  | some _, none => true
  | none, some _ => false
  | none, none => a.created_at ≤ b.created_at

/-- Stable insertion for `respLE`. -/
def insertResp (m : MockResponse) : List MockResponse → List MockResponse
  | [] => [m]
  | x :: xs => if respLE x m then x :: insertResp m xs else m :: x :: xs

/-- `ORDER BY is_default DESC, created_at ASC` as a stable insertion sort. -/
def sortResponses (l : List MockResponse) : List MockResponse :=
  l.foldr insertResp []

/-- An inbound HTTP request as the `/m` router sees it: `path` is the part
of the URL path below the mount (e.g. `/acme/users/1`). -/
structure HReq where
  method : String
  path : String
  headers : List (String × String)
  query : List (String × String)
  body : JsBody
  deriving DecidableEq, Repr

/-- The `{ headers, query, body }` view of an inbound request passed to the
pure helpers. -/
def reqOf (r : HReq) : Req := ⟨r.headers, r.query, r.body⟩

/-- The body of `router.all('/:projectSlug/{*path}')`: CORS headers are set
on every outcome (not modelled — no claim mentions them), `OPTIONS`
short-circuits, then project lookup (`rows[0]` of `WHERE slug = ?`), mock
resolution, response selection, and emission.  `roll` is the `Math.random()`
draw, `elapsed` the measured wall-clock milliseconds.  A `matchPath`
exception is caught by the surrounding `try` as `INTERNAL_ERROR`.  Header
parsing/injection and the delay (steps 4–5 of the source) do not affect the
result/log structure and are not modelled. -/
def runHandler (store : Store) (slug mockPath : String) (req : HReq) (roll : ℚ)
    (elapsed : Nat) : ExecOutcome :=
  if jsToUpper req.method = "OPTIONS" then ⟨.preflight, []⟩
  else
    match store.projects.find? (fun p => p.slug == slug) with
    | none => ⟨.errorOut "PROJECT_NOT_FOUND" 404, []⟩
    | some project =>
        match findMatchingMock store.mocks project.project_id mockPath
            (jsToUpper req.method) with
        | none => ⟨.errorOut "INTERNAL_ERROR" 500, []⟩
        | some none =>
            ⟨.errorOut "MOCK_NOT_FOUND" 404,
              [⟨none, some project.project_id, 404, elapsed⟩]⟩
        | some (some (mock, pathParams)) =>
            match pickResponse
                (sortResponses (store.responses.filter (fun r => r.mock_id == mock.mock_id)))
                (reqOf req) pathParams roll with
            | none => ⟨.errorOut "NO_RESPONSE_DEFINED" 404, []⟩
            | some response =>
                ⟨.emitted response.status_code response.body,
                  [⟨some mock.mock_id, some project.project_id,
                    response.status_code, elapsed⟩]⟩

/-- `req.path.replace(/^\/[^/]+/, '') || '/'`: strip the leading
`/projectSlug` segment; an empty result becomes `/`. -/
def stripSlug (p : String) : String :=
  match p.data with
  | '/' :: t =>
      if (t.takeWhile (fun c => c ≠ '/')).isEmpty then p
      else
        match t.dropWhile (fun c => c ≠ '/') with
        | [] => "/"
        | rest => String.mk rest
  | _ => p

/-- Express 5 dispatch for the `/m` router.  `/:projectSlug/{*path}` matches
paths of the form `/seg/…` (a non-empty first segment followed by `/`; the
brace-wrapped wildcard makes the trailing part optional, the slash before it
is not).  `/:projectSlug` matches `/seg` exactly.  Anything else falls
through the router (`none`). -/
def routeM (store : Store) (req : HReq) (roll : ℚ) (elapsed : Nat) :
    Option ExecOutcome :=
  match req.path.data with
  | '/' :: t =>
      let seg := t.takeWhile (fun c => c ≠ '/')
      if seg.isEmpty then none
      else if (t.dropWhile (fun c => c ≠ '/')).isEmpty then
        -- `router.all('/:projectSlug')`
        some ⟨.errorOut "INVALID_REQUEST" 400, []⟩
      else
        some (runHandler store (String.mk seg) (stripSlug req.path) req roll elapsed)
  | _ => none

/-! ## Concrete fixtures used by the witness theorems -/

/-- A request carrying the `x-role: admin` header. -/
def adminReq : Req := ⟨[("x-role", "admin")], [], .bObj []⟩

/-- An unconditioned default response of weight 0. -/
def respDefault : MockResponse := ⟨"r-def", "m1", 200, "default", some 1, some 0, .arr [], 0⟩

/-- An unconditioned non-default response of weight 0. -/
def respPlain : MockResponse := ⟨"r-plain", "m1", 201, "plain", some 0, some 0, .arr [], 1⟩

/-- A response conditional on `x-role: admin`. -/
def respAdmin : MockResponse :=
  ⟨"r-admin", "m1", 202, "admin", some 0, some 100,
    .arr [⟨"header", "x-role", "equals", "admin"⟩], 2⟩

/-- Fixture: an exact-path mock. -/
def mockHello : Mock := ⟨"m1", "p1", "/hello", "GET", 1⟩

/-- Fixture store: project `acme` with a `GET /hello` mock and one default
response. -/
def storeHello : Store := ⟨[⟨"p1", "acme"⟩], [mockHello], [respDefault]⟩

/-- Fixture store: project `acme` with a responseless mock. -/
def storeNoResp : Store := ⟨[⟨"p1", "acme"⟩], [mockHello], []⟩

/-- Fixture inbound request. -/
def getReq (p : String) : HReq := ⟨"GET", p, [], [], .bObj []⟩

/-! ## Template tokens (for the path-matcher theorems)

A `PTok` list describes a path template made of literal characters and
`{name}` placeholders; `renderT` prints it back to the template string.  The
"plain" side conditions carve out the templates whose literal characters are
not regex metacharacters (the dot **is** allowed — it is the one character
`matchPath` escapes). -/

/-- The number of slash-separated segments of a path string (one more than
the number of `/` characters, as produced by splitting on `/`). -/
def segmentCount (s : String) : Nat := s.data.count '/' + 1

/-- The ECMAScript pattern metacharacters.  `matchPath` escapes only `.`,
so every other member left in a template's static part keeps its regex
meaning. -/
def metaChars : List Char :=
  ['^', '$', '\\', '*', '+', '?', '(', ')', '[', ']', '{', '}', '|']

/-- A literal template character that is not a regex metacharacter
(the dot is allowed). -/
def PlainLit (c : Char) : Prop := c ∉ metaChars

/-- One template token: a literal character or a `{name}` placeholder. -/
inductive PTok where
  | lit (c : Char)
  | hole (name : String)
  deriving DecidableEq, Repr

/-- Well-formedness of a token: plain literal, or a placeholder whose name
is non-empty and contains neither `}` nor `/`. -/
def PlainTok : PTok → Prop
  | .lit c => PlainLit c
  | .hole n => n.data ≠ [] ∧ '}' ∉ n.data ∧ '/' ∉ n.data

instance : DecidablePred PlainLit := fun c => by unfold PlainLit; infer_instance

instance : DecidablePred PlainTok := fun t => by cases t <;> unfold PlainTok <;> infer_instance

/-- Print a token list back into the template string. -/
def renderT : List PTok → List Char
  | [] => []
  | .lit c :: ts => c :: renderT ts
  | .hole n :: ts => '{' :: (n.data ++ '}' :: renderT ts)

/-- A token's contribution to the placeholder-replaced pattern. -/
def rawTok : PTok → List Char
  | .lit c => [c]
  | .hole _ => "([^/]+)".data

/-- A token's contribution to the dot-escaped compiled pattern. -/
def escTok : PTok → List Char
  | .lit c => if c = '.' then ['\\', '.'] else [c]
  | .hole _ => "([^/]+)".data

/-- The placeholder names of a template, in order. -/
def holeNames : List PTok → List String
  | [] => []
  | .lit _ :: ts => holeNames ts
  | .hole n :: ts => n :: holeNames ts

/-- Number of placeholders. -/
def holeCount (ts : List PTok) : Nat := (holeNames ts).length

/-- Slashes contributed by the literal tokens. -/
def staticSlashes : List PTok → Nat
  | [] => 0
  | .lit c :: ts => (if c = '/' then 1 else 0) + staticSlashes ts
  | .hole _ :: ts => staticSlashes ts

/-- The regex a placeholder compiles to: capture group `g` around `[^/]+`. -/
def holeRE (g : Nat) : RE := .grp g (.seq (.plus (.cls true ['/'])) .eps)

/-- The regex a whole template compiles to (continued by `tail`), with
groups numbered from `g`. -/
def wrapToks : List PTok → Nat → RE → RE
  | [], _, tail => tail
  | .lit c :: ts, g, tail => .seq (.lit c) (wrapToks ts g tail)
  | .hole _ :: ts, g, tail => .seq (holeRE g) (wrapToks ts (g + 1) tail)

/-- `/`-count of `input` between positions `a` and `b`. -/
def countSl (input : List Char) (a b : Nat) : Nat :=
  ((input.take b).drop a).count '/'

/-- The parser never treats the head of this list as a postfix quantifier. -/
def noQuantHead : List Char → Prop
  | [] => False
  | c :: _ => c ≠ '*' ∧ c ≠ '+' ∧ c ≠ '?'

instance : DecidablePred noQuantHead := fun l => by
  cases l <;> unfold noQuantHead <;> infer_instance

/-! ## Helper lemmas: response selection -/

theorem weightWalk_mem {l : List MockResponse} {roll : ℚ} {x : MockResponse}
    (h : weightWalk l roll = some x) : x ∈ l := by
  induction l generalizing roll with
  | nil => simp [weightWalk] at h
  | cons r rest ih =>
      simp only [weightWalk] at h
      split at h
      · cases h; exact List.mem_cons_self _ _
      · exact List.mem_cons_of_mem _ (ih h)

theorem candidates_subset {responses : List MockResponse} {req : Req} {pp : Params}
    {x : MockResponse} (h : x ∈ candidates responses req pp) : x ∈ responses := by
  unfold candidates at h
  dsimp only at h
  by_cases hcm : (conditionalMatches responses req pp).isEmpty
  · rw [if_pos hcm] at h
    by_cases huc : (unconditioned responses req pp).isEmpty
    · rw [if_pos huc] at h; exact h
    · rw [if_neg huc] at h; exact (List.mem_filter.mp h).1
  · rw [if_neg hcm, if_neg hcm] at h
    exact (List.mem_filter.mp h).1

theorem candidates_ne_nil {responses : List MockResponse} {req : Req} {pp : Params}
    (h : responses ≠ []) : candidates responses req pp ≠ [] := by
  unfold candidates
  dsimp only
  by_cases hcm : (conditionalMatches responses req pp).isEmpty
  · rw [if_pos hcm]
    by_cases huc : (unconditioned responses req pp).isEmpty
    · rw [if_pos huc]; exact h
    · rw [if_neg huc]
      simpa [List.isEmpty_iff] using huc
  · rw [if_neg hcm, if_neg hcm]
    simpa [List.isEmpty_iff] using hcm

theorem candidates_eq_of_condMatches {responses : List MockResponse} {req : Req}
    {pp : Params} (h : conditionalMatches responses req pp ≠ []) :
    candidates responses req pp = conditionalMatches responses req pp := by
  have h' : ¬((conditionalMatches responses req pp).isEmpty = true) := by
    simpa [List.isEmpty_iff] using h
  unfold candidates
  dsimp only
  rw [if_neg h', if_neg h']

theorem mem_of_head?_eq_some {α : Type} {l : List α} {a : α} (h : l.head? = some a) :
    a ∈ l := by
  cases l with
  | nil => simp at h
  | cons b t => simp at h; simp [h]

theorem mem_of_getLast?_eq_some {α : Type} {l : List α} {a : α}
    (h : l.getLast? = some a) : a ∈ l := by
  cases l with
  | nil => simp at h
  | cons b t =>
      simp only [List.getLast?] at h
      cases h
      exact List.getLast_mem _

theorem jsOr_eq_some {α : Type} {x y : Option α} {a : α} (h : jsOr x y = some a) :
    x = some a ∨ (x = none ∧ y = some a) := by
  cases x with
  | none => exact Or.inr ⟨rfl, h⟩
  | some b => exact Or.inl h

/-- In the multi-element branch, any returned response is a pool member. -/
theorem pick_mem_candidates {a b : MockResponse} {l : List MockResponse} {req : Req}
    {pp : Params} {roll : ℚ} {x : MockResponse}
    (h : pickResponse (a :: b :: l) req pp roll = some x) :
    x ∈ candidates (a :: b :: l) req pp := by
  simp only [pickResponse] at h
  by_cases h1 : (candidates (a :: b :: l) req pp).length = 1
  · rw [if_pos h1] at h
    exact mem_of_head?_eq_some h
  · rw [if_neg h1] at h
    by_cases hw : totalWeight (candidates (a :: b :: l) req pp) = 0
    · rw [if_pos hw] at h
      rcases jsOr_eq_some h with hf | ⟨-, hh⟩
      · exact List.mem_of_find?_eq_some hf
      · exact mem_of_head?_eq_some hh
    · rw [if_neg hw] at h
      rcases jsOr_eq_some h with hwk | ⟨-, hh⟩
      · exact weightWalk_mem hwk
      · exact mem_of_getLast?_eq_some hh

/-- Any returned response comes from the input list. -/
theorem pick_mem {responses : List MockResponse} {req : Req} {pp : Params} {roll : ℚ}
    {x : MockResponse} (h : pickResponse responses req pp roll = some x) :
    x ∈ responses := by
  match responses with
  | [] => simp [pickResponse] at h
  | [r] =>
      simp only [pickResponse] at h
      cases h; exact List.mem_cons_self _ _
  | a :: b :: l => exact candidates_subset (pick_mem_candidates h)

/-- `pickResponse` never returns `null` on a non-empty list. -/
theorem pick_isSome {responses : List MockResponse} (req : Req) (pp : Params)
    (roll : ℚ) (h : responses ≠ []) :
    ∃ x, pickResponse responses req pp roll = some x := by
  match responses with
  | [] => exact absurd rfl h
  | [r] => exact ⟨r, rfl⟩
  | a :: b :: l =>
      have hne : candidates (a :: b :: l) req pp ≠ [] := candidates_ne_nil (by simp)
      obtain ⟨c, cl, hc⟩ : ∃ c cl, candidates (a :: b :: l) req pp = c :: cl := by
        cases hx : candidates (a :: b :: l) req pp with
        | nil => exact absurd hx hne
        | cons c cl => exact ⟨c, cl, rfl⟩
      simp only [pickResponse]
      by_cases h1 : (candidates (a :: b :: l) req pp).length = 1
      · rw [if_pos h1, hc]
        exact ⟨c, rfl⟩
      · rw [if_neg h1]
        by_cases hw : totalWeight (candidates (a :: b :: l) req pp) = 0
        · rw [if_pos hw]
          cases hf : (candidates (a :: b :: l) req pp).find? (fun r => r.is_default == some 1) with
          | some d => exact ⟨d, rfl⟩
          | none => exact ⟨c, by simp [jsOr, hc]⟩
        · rw [if_neg hw]
          cases hwk : weightWalk (candidates (a :: b :: l) req pp)
              (roll * (totalWeight (candidates (a :: b :: l) req pp) : ℚ)) with
          | some e => exact ⟨e, rfl⟩
          | none =>
              exact ⟨(candidates (a :: b :: l) req pp).getLast hne,
                by simp [jsOr, List.getLast?_eq_getLast _ hne]⟩

/-- `responseMatchesConditions` signals a conditional match exactly for a
non-empty stored condition array in which every condition holds. -/
theorem rmc_true_iff (r : MockResponse) (req : Req) (pp : Params) :
    responseMatchesConditions r req pp = (true, true)
      ↔ ∃ cs, r.conditions = .arr cs ∧ cs ≠ []
          ∧ ∀ c ∈ cs, evaluateCondition c req pp = true := by
  unfold responseMatchesConditions
  cases hc : r.conditions with
  | nonArr => simp
  | arr cs =>
      cases cs with
      | nil => simp
      | cons c0 cl =>
          constructor
          · intro h
            refine ⟨c0 :: cl, rfl, by simp, ?_⟩
            have := (Prod.mk.injEq _ _ _ _).mp h
            simpa [List.all_eq_true] using this.1
          · rintro ⟨cs', hcs', -, hall⟩
            cases hcs'
            have hx : (c0 :: cl).all (fun c => evaluateCondition c req pp) = true := by
              simp only [List.all_eq_true]
              exact hall
            simp [hx]

/-! ## Claims C1, C8, C9 -/

/-- C1: if some response has a non-empty condition list whose conditions all
evaluate true, `pickResponse` only ever returns such a response (never an
unconditioned one); in particular, with one unconditioned default response
and one response whose conditions are satisfied, it deterministically
returns the conditional one, for every outcome of the random draw. -/
theorem C1_conditional_pool_priority (responses : List MockResponse) (req : Req)
    (pp : Params) (roll : ℚ) :
    (∀ x, (∃ r ∈ responses, ∃ cs, r.conditions = CondsField.arr cs ∧ cs ≠ []
            ∧ ∀ c ∈ cs, evaluateCondition c req pp = true) →
        pickResponse responses req pp roll = some x →
        ∃ cs, x.conditions = CondsField.arr cs ∧ cs ≠ []
          ∧ ∀ c ∈ cs, evaluateCondition c req pp = true)
    ∧ (∀ (rdef rcond : MockResponse) (cs : List Condition),
        rdef.conditions = CondsField.arr [] → rdef.is_default = some 1 →
        rcond.conditions = CondsField.arr cs → cs ≠ [] →
        (∀ c ∈ cs, evaluateCondition c req pp = true) →
        pickResponse [rdef, rcond] req pp roll = some rcond) := by
  constructor
  · intro x hex hpick
    have hcm : conditionalMatches responses req pp ≠ [] := by
      obtain ⟨r, hr, cs, h1, h2, h3⟩ := hex
      have hrm : r ∈ conditionalMatches responses req pp := by
        simp only [conditionalMatches, List.mem_filter]
        exact ⟨hr, by simp [(rmc_true_iff r req pp).mpr ⟨cs, h1, h2, h3⟩]⟩
      intro he
      rw [he] at hrm
      simp at hrm
    have hx : x ∈ conditionalMatches responses req pp := by
      rcases responses with - | ⟨a, - | ⟨b, l⟩⟩
      · obtain ⟨r, hr, -⟩ := hex
        simp at hr
      · have hx0 : x = a := by
          simp only [pickResponse] at hpick
          cases hpick; rfl
        subst hx0
        have hsub : List.Sublist (conditionalMatches [x] req pp) [x] := by
          unfold conditionalMatches; exact List.filter_sublist _
        rcases List.sublist_singleton.mp hsub with hs | hs
        · exact absurd hs hcm
        · rw [hs]; exact List.mem_cons_self _ _
      · have hmem := pick_mem_candidates hpick
        rwa [candidates_eq_of_condMatches hcm] at hmem
    have := (List.mem_filter.mp hx).2
    exact (rmc_true_iff x req pp).mp (by simpa using this)
  · intro rdef rcond cs h1 h2 h3 h4 h5
    have hrmd : responseMatchesConditions rdef req pp = (true, false) := by
      simp [responseMatchesConditions, h1]
    have hrmc : responseMatchesConditions rcond req pp = (true, true) :=
      (rmc_true_iff rcond req pp).mpr ⟨cs, h3, h4, h5⟩
    have hcm : conditionalMatches [rdef, rcond] req pp = [rcond] := by
      simp [conditionalMatches, List.filter, hrmd, hrmc]
    have hcand : candidates [rdef, rcond] req pp = [rcond] :=
      (candidates_eq_of_condMatches (by rw [hcm]; simp)).trans hcm
    simp [pickResponse, hcand]

/-- C1 witness: one unconditioned default response and one response whose
`x-role: admin` header condition is satisfied — selection returns the
conditional one at the concrete draw 1/2. -/
theorem C1_witness :
    pickResponse [respDefault, respAdmin] adminReq [] (1/2) = some respAdmin :=
  (C1_conditional_pool_priority [respDefault, respAdmin] adminReq [] (1/2)).2
    respDefault respAdmin [⟨"header", "x-role", "equals", "admin"⟩]
    (by decide) (by decide) (by decide) (by decide) (by decide)

/-- C8: when the candidate pool has more than one member and the pool's
total weight (missing weight counted as 0) is zero, selection deterministically
falls back to the pool member flagged `is_default = 1`, or the pool's first
member when none is flagged. -/
theorem C8_zero_weight_default (responses : List MockResponse) (req : Req)
    (pp : Params) (roll : ℚ)
    (hlen : 1 < (candidates responses req pp).length)
    (hw : totalWeight (candidates responses req pp) = 0) :
    pickResponse responses req pp roll =
      jsOr ((candidates responses req pp).find? (fun r => r.is_default == some 1))
        (candidates responses req pp).head? := by
  have hle : (candidates responses req pp).length ≤ responses.length := by
    unfold candidates
    dsimp only
    by_cases hcm : (conditionalMatches responses req pp).isEmpty
    · rw [if_pos hcm]
      by_cases huc : (unconditioned responses req pp).isEmpty
      · rw [if_pos huc]
      · rw [if_neg huc]; exact List.length_filter_le _ _
    · rw [if_neg hcm, if_neg hcm]; exact List.length_filter_le _ _
  match responses with
  | [] =>
      rw [show candidates [] req pp = [] from rfl] at hlen
      simp at hlen
  | [r] =>
      simp only [List.length_cons, List.length_nil] at hle
      omega
  | a :: b :: l =>
      simp only [pickResponse]
      rw [if_neg (by omega), if_pos hw]

/-- C8 witness: two responses of weight 0, the second flagged default —
selection returns the default one at the concrete draw 1/2. -/
theorem C8_witness :
    pickResponse [respPlain, respDefault] adminReq [] (1/2) = some respDefault :=
  (C8_zero_weight_default [respPlain, respDefault] adminReq [] (1/2)
    (by decide) (by decide)).trans (by decide)

/-- C9: `pickResponse` returns `null` exactly on the empty list, returns the
sole element of a singleton for any request, and on any non-empty list and
any draw returns an element of the input list. -/
theorem C9_pick_totality (responses : List MockResponse) (req : Req) (pp : Params)
    (roll : ℚ) :
    (pickResponse responses req pp roll = none ↔ responses = [])
    ∧ (∀ r : MockResponse, pickResponse [r] req pp roll = some r)
    ∧ (responses ≠ [] →
        ∃ x, x ∈ responses ∧ pickResponse responses req pp roll = some x) := by
  refine ⟨⟨fun hn => ?_, fun he => by rw [he]; rfl⟩, fun r => rfl, fun hne => ?_⟩
  · by_contra hne
    obtain ⟨x, hx⟩ := pick_isSome req pp roll hne
    rw [hn] at hx
    cases hx
  · obtain ⟨x, hx⟩ := pick_isSome req pp roll hne
    exact ⟨x, pick_mem hx, hx⟩

/-- C9 witness: concrete instances of all three conjuncts. -/
theorem C9_witness :
    pickResponse [] adminReq [] (1/2) = none
    ∧ pickResponse [respDefault] adminReq [] (1/2) = some respDefault
    ∧ ∃ x, x ∈ [respPlain, respAdmin]
        ∧ pickResponse [respPlain, respAdmin] adminReq [] (1/2) = some x :=
  ⟨(C9_pick_totality [] adminReq [] (1/2)).1.mpr rfl,
    (C9_pick_totality [respDefault] adminReq [] (1/2)).2.1 respDefault,
    (C9_pick_totality [respPlain, respAdmin] adminReq [] (1/2)).2.2 (by decide)⟩

/-! ## Claims C6, C7 -/

/-- C6: for a `header` condition, the field is lowercased before the lookup,
so for a fixed request the evaluation result is the same for every casing of
the field name (relative to however the stored header key is cased). -/
theorem C6_header_field_case_insensitive (c : Condition) (req : Req) (pp : Params)
    (f2 : String) (htype : c.type = "header")
    (hcase : jsToLower c.field = jsToLower f2) :
    evaluateCondition c req pp = evaluateCondition { c with field := f2 } req pp := by
  unfold evaluateCondition resolveActual
  simp only [htype]
  rw [hcase]
  simp

/-- C6 witness: `X-Role` and `x-ROLE` resolve identically against
lowercase header storage (and the condition holds there). -/
theorem C6_witness :
    evaluateCondition ⟨"header", "X-Role", "equals", "admin"⟩ adminReq []
      = evaluateCondition ⟨"header", "x-ROLE", "equals", "admin"⟩ adminReq []
    ∧ evaluateCondition ⟨"header", "X-Role", "equals", "admin"⟩ adminReq [] = true :=
  ⟨C6_header_field_case_insensitive ⟨"header", "X-Role", "equals", "admin"⟩ adminReq []
      "x-ROLE" (by decide) (by decide),
    by decide⟩

/-- C7: `evaluateCondition` is total and degrades to `false` on every
degenerate input: unknown `type`, unknown `operator`, an absent resolved
value, a non-object body for a `body` condition, and a `regex` operator
whose pattern does not compile — concretely the pattern `[invalid`.
(Totality itself is by construction: the embedding is a Lean function.) -/
theorem C7_evaluate_total_degrades (c : Condition) (req : Req) (pp : Params) :
    (c.type ∉ ["header", "query", "body", "path"] →
      evaluateCondition c req pp = false)
    ∧ (c.operator ∉ ["equals", "contains", "regex"] →
      evaluateCondition c req pp = false)
    ∧ (resolveActual c req pp = none → evaluateCondition c req pp = false)
    ∧ (c.type = "body" → (∀ kv, req.body ≠ .bObj kv) →
      evaluateCondition c req pp = false)
    ∧ (c.operator = "regex" → parseRegex c.value.data = none →
      evaluateCondition c req pp = false)
    ∧ (c.operator = "regex" → c.value = "[invalid" →
      evaluateCondition c req pp = false) := by
  have hresolve : ∀ hres : resolveActual c req pp = none,
      evaluateCondition c req pp = false := by
    intro hres
    unfold evaluateCondition
    rw [hres]
    split <;> rfl
  refine ⟨?_, ?_, hresolve, ?_, ?_, ?_⟩
  · intro htype
    simp only [List.mem_cons, List.not_mem_nil, or_false, not_or] at htype
    unfold evaluateCondition
    rw [if_pos ⟨htype.1, htype.2.1, htype.2.2.1, htype.2.2.2⟩]
  · intro hop
    simp only [List.mem_cons, List.not_mem_nil, or_false, not_or] at hop
    unfold evaluateCondition
    split
    · rfl
    · cases hres : resolveActual c req pp with
      | none => rfl
      | some a =>
          obtain ⟨h1, h2, h3⟩ := hop
          simp [h1, h2, h3]
  · intro htype hbody
    apply hresolve
    unfold resolveActual
    rw [if_neg (by simp [htype]), if_neg (by simp [htype]), if_pos htype]
    cases hb : req.body with
    | bObj kv => exact absurd hb (hbody kv)
    | bUndef => rfl
    | bNull => rfl
    | bStr s => rfl
  · intro hop hparse
    unfold evaluateCondition
    split
    · rfl
    · cases hres : resolveActual c req pp with
      | none => rfl
      | some a => simp [hop, jsRegexTest, hparse]
  · intro hop hval
    unfold evaluateCondition
    split
    · rfl
    · cases hres : resolveActual c req pp with
      | none => rfl
      | some a =>
          have : parseRegex ("[invalid" : String).data = none := by decide
          simp [hop, hval, jsRegexTest, this]

/-- C7 witness: concrete degenerate inputs — unknown type `cookie`, unknown
operator `startsWith`, a missing header, a string body for a `body`
condition, and the invalid pattern `[invalid` — all evaluate to `false`. -/
theorem C7_witness :
    evaluateCondition ⟨"cookie", "session", "equals", "abc"⟩ adminReq [] = false
    ∧ evaluateCondition ⟨"header", "x-role", "startsWith", "adm"⟩ adminReq [] = false
    ∧ evaluateCondition ⟨"header", "x-missing", "equals", "v"⟩ adminReq [] = false
    ∧ evaluateCondition ⟨"body", "action", "equals", "delete"⟩ ⟨[], [], .bStr "plain"⟩ [] = false
    ∧ evaluateCondition ⟨"header", "x-role", "regex", "[invalid"⟩ adminReq [] = false :=
  ⟨(C7_evaluate_total_degrades ⟨"cookie", "session", "equals", "abc"⟩ adminReq []).1
      (by decide),
    (C7_evaluate_total_degrades ⟨"header", "x-role", "startsWith", "adm"⟩ adminReq []).2.1
      (by decide),
    (C7_evaluate_total_degrades ⟨"header", "x-missing", "equals", "v"⟩ adminReq []).2.2.1
      (by decide),
    (C7_evaluate_total_degrades ⟨"body", "action", "equals", "delete"⟩
        ⟨[], [], .bStr "plain"⟩ []).2.2.2.1 rfl (by intro kv h; cases h),
    (C7_evaluate_total_degrades ⟨"header", "x-role", "regex", "[invalid"⟩ adminReq []).2.2.2.2.2
      rfl rfl⟩

/-! ## Helper lemmas: mock resolution -/

theorem insertMockDesc_mem {y m : Mock} {l : List Mock} :
    y ∈ insertMockDesc m l ↔ y = m ∨ y ∈ l := by
  induction l with
  | nil => simp [insertMockDesc]
  | cons x xs ih =>
      unfold insertMockDesc
      split <;> simp only [List.mem_cons, ih] <;> tauto

theorem sortByLenDesc_mem {y : Mock} {l : List Mock} :
    y ∈ sortByLenDesc l ↔ y ∈ l := by
  induction l with
  | nil => simp [sortByLenDesc]
  | cons x xs ih =>
      show y ∈ insertMockDesc x (sortByLenDesc xs) ↔ _
      rw [insertMockDesc_mem]
      simp [ih]

theorem insertMockDesc_pairwise {m : Mock} {l : List Mock}
    (h : l.Pairwise (fun a b => b.path.length ≤ a.path.length)) :
    (insertMockDesc m l).Pairwise (fun a b => b.path.length ≤ a.path.length) := by
  induction l with
  | nil => simp [insertMockDesc]
  | cons x xs ih =>
      rw [List.pairwise_cons] at h
      unfold insertMockDesc
      split
      · next hlt =>
          rw [List.pairwise_cons]
          refine ⟨fun y hy => ?_, ih h.2⟩
          rcases insertMockDesc_mem.mp hy with rfl | hy'
          · omega
          · exact h.1 y hy'
      · next hge =>
          rw [List.pairwise_cons]
          refine ⟨fun y hy => ?_, List.pairwise_cons.mpr h⟩
          rcases List.mem_cons.mp hy with rfl | hy'
          · omega
          · have := h.1 y hy'
            omega

theorem sortByLenDesc_pairwise (l : List Mock) :
    (sortByLenDesc l).Pairwise (fun a b => b.path.length ≤ a.path.length) := by
  induction l with
  | nil => simp [sortByLenDesc]
  | cons x xs ih => exact insertMockDesc_pairwise ih

theorem scanTemplates_eq_found {rp : String} {l : List Mock} {k : Mock} {ps : Params}
    (h : scanTemplates rp l = some (some (k, ps))) :
    ∃ l1 l2, l = l1 ++ k :: l2
      ∧ (∀ j ∈ l1, j.path.data.contains '{' = true →
          ∃ r, matchPath j.path rp = some r ∧ r.isMatch = false)
      ∧ k.path.data.contains '{' = true
      ∧ matchPath k.path rp = some ⟨true, ps⟩ := by
  induction l with
  | nil => simp [scanTemplates] at h
  | cons x xs ih =>
      unfold scanTemplates at h
      split at h
      · next hbrace =>
          split at h
          · cases h
          · next r hm =>
              by_cases hr : r.isMatch = true
              · rw [if_pos hr] at h
                obtain ⟨hk, hp⟩ : x = k ∧ r.params = ps := by
                  cases h; exact ⟨rfl, rfl⟩
                subst hk
                subst hp
                refine ⟨[], xs, rfl, by simp, hbrace, ?_⟩
                rw [hm]
                have he : r = ⟨r.isMatch, r.params⟩ := rfl
                rw [he, hr]
              · rw [if_neg hr] at h
                obtain ⟨l1, l2, rfl, hfail, hb, hmk⟩ := ih h
                refine ⟨x :: l1, l2, rfl, ?_, hb, hmk⟩
                intro j hj hjb
                rcases List.mem_cons.mp hj with rfl | hj'
                · exact ⟨r, hm, by simpa using hr⟩
                · exact hfail j hj' hjb
      · next hbrace =>
          obtain ⟨l1, l2, rfl, hfail, hb, hmk⟩ := ih h
          refine ⟨x :: l1, l2, rfl, ?_, hb, hmk⟩
          intro j hj hjb
          rcases List.mem_cons.mp hj with rfl | hj'
          · exact absurd hjb (by simpa using hbrace)
          · exact hfail j hj' hjb

theorem scanTemplates_eq_none {rp : String} {l : List Mock}
    (h : scanTemplates rp l = some none) :
    ∀ j ∈ l, j.path.data.contains '{' = true →
      ∃ r, matchPath j.path rp = some r ∧ r.isMatch = false := by
  induction l with
  | nil => simp
  | cons x xs ih =>
      unfold scanTemplates at h
      intro j hj hjb
      split at h
      · next hbrace =>
          split at h
          · cases h
          · next r hm =>
              by_cases hr : r.isMatch = true
              · rw [if_pos hr] at h; cases h
              · rw [if_neg hr] at h
                rcases List.mem_cons.mp hj with rfl | hj'
                · exact ⟨r, hm, by simpa using hr⟩
                · exact ih h j hj' hjb
      · next hbrace =>
          rcases List.mem_cons.mp hj with rfl | hj'
          · exact absurd hjb (by simpa using hbrace)
          · exact ih h j hj' hjb

/-! ## Claim C2 -/

/-- C2: `findMatchingMock` prefers an exact active match (first matching
table row, empty `pathParams`, regardless of any template mock); otherwise
only active mocks whose path contains a `{` placeholder are considered, in
decreasing path-length order (every strictly longer active template fails
before a returned one), and `null` is returned exactly when no exact row
exists and every active template mock fails to match.  (`method` is the
uppercased request method at the call site.) -/
theorem C2_mock_resolution (mocks : List Mock) (pid rp m : String) :
    (∀ k rest, mocks.filter (exactPred pid rp m) = k :: rest →
        findMatchingMock mocks pid rp m = some (some (k, [])))
    ∧ (mocks.filter (exactPred pid rp m) = [] →
        ∀ k ps, findMatchingMock mocks pid rp m = some (some (k, ps)) →
          k ∈ mocks ∧ activePred pid m k = true ∧ k.path.data.contains '{' = true
          ∧ matchPath k.path rp = some ⟨true, ps⟩
          ∧ ∀ j ∈ mocks, activePred pid m j = true → j.path.data.contains '{' = true →
              k.path.length < j.path.length →
              ∃ r, matchPath j.path rp = some r ∧ r.isMatch = false)
    ∧ (findMatchingMock mocks pid rp m = some none →
        mocks.filter (exactPred pid rp m) = []
        ∧ ∀ j ∈ mocks, activePred pid m j = true → j.path.data.contains '{' = true →
            ∃ r, matchPath j.path rp = some r ∧ r.isMatch = false) := by
  refine ⟨?_, ?_, ?_⟩
  · intro k rest hfilter
    unfold findMatchingMock
    rw [hfilter]
  · intro hfilter k ps h
    unfold findMatchingMock at h
    rw [hfilter] at h
    obtain ⟨l1, l2, hsplit, hfail, hb, hmk⟩ := scanTemplates_eq_found h
    have hksort : k ∈ sortByLenDesc (mocks.filter (activePred pid m)) := by
      rw [hsplit]
      exact List.mem_append.mpr (Or.inr (List.mem_cons_self _ _))
    have hkfil := sortByLenDesc_mem.mp hksort
    have hkm := List.mem_filter.mp hkfil
    refine ⟨hkm.1, hkm.2, hb, hmk, ?_⟩
    intro j hj hja hjb hlen
    have hjsort : j ∈ sortByLenDesc (mocks.filter (activePred pid m)) :=
      sortByLenDesc_mem.mpr (List.mem_filter.mpr ⟨hj, hja⟩)
    have hpw := sortByLenDesc_pairwise (mocks.filter (activePred pid m))
    rw [hsplit] at hjsort hpw
    rw [List.pairwise_append] at hpw
    rcases List.mem_append.mp hjsort with hj1 | hj2
    · exact hfail j hj1 hjb
    · rcases List.mem_cons.mp hj2 with rfl | hj3
      · omega
      · have := (List.pairwise_cons.mp hpw.2.1).1 j hj3
        omega
  · intro h
    unfold findMatchingMock at h
    cases hfilter : mocks.filter (exactPred pid rp m) with
    | cons k rest => rw [hfilter] at h; cases h
    | nil =>
        rw [hfilter] at h
        refine ⟨rfl, ?_⟩
        intro j hj hja hjb
        exact scanTemplates_eq_none h j
          (sortByLenDesc_mem.mpr (List.mem_filter.mpr ⟨hj, hja⟩)) hjb

/-- C2 witness: a store with a single exact active mock — resolution returns
it with empty parameters. -/
theorem C2_witness :
    findMatchingMock [mockHello] "p1" "/hello" "GET" = some (some (mockHello, [])) :=
  (C2_mock_resolution [mockHello] "p1" "/hello" "GET").1 mockHello [] (by decide)

/-! ## Claims C3, C10 -/

/-- C3: per execution attempt the handler issues exactly one request-log
write on the success path; exactly one on the `MOCK_NOT_FOUND` path (null
mock id, status 404, the measured elapsed time); and none on the
`PROJECT_NOT_FOUND` and `NO_RESPONSE_DEFINED` paths. -/
theorem C3_log_writes (store : Store) (slug mockPath : String) (req : HReq)
    (roll : ℚ) (elapsed : Nat) :
    (∀ st b, (runHandler store slug mockPath req roll elapsed).result = .emitted st b →
        (runHandler store slug mockPath req roll elapsed).logs.length = 1)
    ∧ ((runHandler store slug mockPath req roll elapsed).result
          = .errorOut "MOCK_NOT_FOUND" 404 →
        ∃ pid, (runHandler store slug mockPath req roll elapsed).logs
          = [⟨none, some pid, 404, elapsed⟩])
    ∧ ((runHandler store slug mockPath req roll elapsed).result
          = .errorOut "PROJECT_NOT_FOUND" 404 →
        (runHandler store slug mockPath req roll elapsed).logs = [])
    ∧ ((runHandler store slug mockPath req roll elapsed).result
          = .errorOut "NO_RESPONSE_DEFINED" 404 →
        (runHandler store slug mockPath req roll elapsed).logs = []) := by
  unfold runHandler
  by_cases hopt : jsToUpper req.method = "OPTIONS"
  · rw [if_pos hopt]
    refine ⟨?_, ?_, ?_, ?_⟩
    · intro st b h; simp at h
    · intro h; simp at h
    · intro h; rfl
    · intro h; rfl
  · rw [if_neg hopt]
    split
    · refine ⟨?_, ?_, ?_, ?_⟩
      · intro st b h; simp at h
      · intro h; simp at h
      · intro h; rfl
      · intro h; rfl
    · next project hproj =>
        split
        · refine ⟨?_, ?_, ?_, ?_⟩
          · intro st b h; simp at h
          · intro h; simp at h
          · intro h; rfl
          · intro h; rfl
        · refine ⟨?_, ?_, ?_, ?_⟩
          · intro st b h; simp at h
          · intro h; exact ⟨project.project_id, rfl⟩
          · intro h; simp at h
          · intro h; simp at h
        · next mock pathParams hmock =>
            split
            · refine ⟨?_, ?_, ?_, ?_⟩
              · intro st b h; simp at h
              · intro h; simp at h
              · intro h; simp at h
              · intro h; rfl
            · refine ⟨?_, ?_, ?_, ?_⟩
              · intro st b h; rfl
              · intro h; simp at h
              · intro h; simp at h
              · intro h; simp at h

/-- C3 witness: the four paths at concrete stores — success logs one entry,
`MOCK_NOT_FOUND` logs one null-mock 404 entry with the elapsed time,
`PROJECT_NOT_FOUND` and `NO_RESPONSE_DEFINED` log nothing. -/
theorem C3_witness :
    (runHandler storeHello "acme" "/hello" (getReq "/acme/hello") (1/2) 7).logs.length = 1
    ∧ (∃ pid, (runHandler storeHello "acme" "/missing" (getReq "/acme/missing") (1/2) 7).logs
        = [⟨none, some pid, 404, 7⟩])
    ∧ (runHandler storeHello "nope" "/hello" (getReq "/nope/hello") (1/2) 7).logs = []
    ∧ (runHandler storeNoResp "acme" "/hello" (getReq "/acme/hello") (1/2) 7).logs = [] :=
  ⟨(C3_log_writes storeHello "acme" "/hello" (getReq "/acme/hello") (1/2) 7).1
      200 "default" (by decide),
    (C3_log_writes storeHello "acme" "/missing" (getReq "/acme/missing") (1/2) 7).2.1
      (by decide),
    (C3_log_writes storeHello "nope" "/hello" (getReq "/nope/hello") (1/2) 7).2.2.1
      (by decide),
    (C3_log_writes storeNoResp "acme" "/hello" (getReq "/acme/hello") (1/2) 7).2.2.2
      (by decide)⟩

theorem takeWhile_eq_self_of_all {α : Type} {p : α → Bool} {l : List α}
    (h : ∀ a ∈ l, p a = true) : l.takeWhile p = l := by
  induction l with
  | nil => rfl
  | cons x xs ih =>
      rw [List.takeWhile_cons, h x (List.mem_cons_self _ _)]
      simp [ih (fun a ha => h a (List.mem_cons_of_mem _ ha))]

theorem dropWhile_eq_nil_of_all {α : Type} {p : α → Bool} {l : List α}
    (h : ∀ a ∈ l, p a = true) : l.dropWhile p = [] := by
  induction l with
  | nil => rfl
  | cons x xs ih =>
      rw [List.dropWhile_cons, h x (List.mem_cons_self _ _)]
      simp [ih (fun a ha => h a (List.mem_cons_of_mem _ ha))]

/-- C10: a request whose path under the `/m` mount is exactly `/slug` (a
single non-empty segment, no further path) is dispatched to the
`router.all('/:projectSlug')` fallback: HTTP 400, error `INVALID_REQUEST`,
no log write — and the outcome is the same for every store, so no lookup can
influence it. -/
theorem C10_invalid_request (store : Store) (req : HReq) (roll : ℚ) (elapsed : Nat)
    (slug : String) (hne : slug ≠ "") (hs : slug.data.contains '/' = false)
    (hpath : req.path = "/" ++ slug) :
    routeM store req roll elapsed = some ⟨.errorOut "INVALID_REQUEST" 400, []⟩ := by
  have hall : ∀ c ∈ slug.data, (fun c => decide (c ≠ '/')) c = true := by
    simp only [List.contains, List.elem_eq_mem, decide_eq_false_iff_not] at hs
    intro c hc
    simp only [decide_eq_true_eq]
    rintro rfl
    exact hs hc
  have hdata : req.path.data = '/' :: slug.data := by
    rw [hpath]
    simp [String.data_append]
  have hne' : slug.data ≠ [] := by
    intro he
    exact hne (by cases slug; simp_all)
  unfold routeM
  rw [hdata]
  have htake : slug.data.takeWhile (fun c => c ≠ '/') = slug.data :=
    takeWhile_eq_self_of_all hall
  have hdrop : slug.data.dropWhile (fun c => c ≠ '/') = [] :=
    dropWhile_eq_nil_of_all hall
  simp only [htake, hdrop]
  rw [if_neg (by simpa [List.isEmpty_iff] using hne'), if_pos (by simp)]

/-- C10 witness: `GET /m/acme` against the populated fixture store. -/
theorem C10_witness :
    routeM storeHello (getReq "/acme") (1/2) 7
      = some ⟨.errorOut "INVALID_REQUEST" 400, []⟩ :=
  C10_invalid_request storeHello (getReq "/acme") (1/2) 7 "acme"
    (by decide) (by decide) rfl

/-! ## Claims C4, C5: counterexamples -/

/-- C4 counterexample: the template `/a+b` has no placeholder, yet matches
the different path `/aab` — the unescaped `+` acts as a regex quantifier, so
static metacharacters other than the dot do not match only themselves. -/
theorem C4_counterexample :
    matchPath "/a+b" "/aab" = some ⟨true, []⟩ ∧ "/aab" ≠ "/a+b" := by decide

/-- C5 counterexample: the template `(/a)+` (two slash-separated segments)
matches `/a/a` (three segments) — the unescaped group-plus consumes repeated
segments, so a segment-count mismatch does not force a failed match. -/
theorem C5_counterexample :
    matchPath "(/a)+" "/a/a" = some ⟨true, []⟩
    ∧ segmentCount "(/a)+" ≠ segmentCount "/a/a" := by decide

/-! ## Helper lemmas: slash counting in matched regions -/

theorem countSl_self (input : List Char) (p : Nat) : countSl input p p = 0 := by
  unfold countSl
  rw [List.drop_eq_nil_of_le (by simpa using Nat.min_le_left p input.length)]
  rfl

theorem countSl_add (input : List Char) {a b c : Nat} (h1 : a ≤ b) (h2 : b ≤ c) :
    countSl input a c = countSl input a b + countSl input b c := by
  unfold countSl
  rw [List.drop_take, List.drop_take, List.drop_take]
  have hsplit : c - a = (b - a) + (c - b) := by omega
  rw [hsplit, List.take_add, List.count_append]
  have hd : (input.drop a).drop (b - a) = input.drop b := by
    rw [List.drop_drop]
    congr 1
    omega
  rw [hd]

theorem countSl_single (input : List Char) {p : Nat} {c : Char}
    (h : input[p]? = some c) :
    countSl input p (p + 1) = if c = '/' then 1 else 0 := by
  have hlt : p < input.length := by
    by_contra hge
    rw [List.getElem?_eq_none (by omega)] at h
    cases h
  unfold countSl
  rw [List.drop_take]
  have : p + 1 - p = 1 := by omega
  rw [this]
  rw [List.drop_eq_getElem_cons hlt]
  have hc : input[p] = c := by
    have := List.getElem?_eq_getElem hlt
    rw [this] at h
    cases h
    rfl
  rw [hc, show (c :: input.drop (p + 1)).take 1 = [c] from rfl]
  by_cases hcs : c = '/'
  · simp [hcs, List.count_cons]
  · simp [hcs, List.count_cons]

theorem countSl_full (input : List Char) :
    countSl input 0 input.length = input.count '/' := by
  unfold countSl
  rw [List.take_length, List.drop_zero]

/-! ## Helper lemmas: matcher soundness for compiled templates -/

theorem reMatch_seq (input : List Char) (a b : RE) (p : Nat) (k : Caps) :
    reMatch input (.seq a b) p k
      = (reMatch input a p k).flatMap (fun q => reMatch input b q.1 q.2) := rfl

theorem reMatch_grp (input : List Char) (n : Nat) (a : RE) (p : Nat) (k : Caps) :
    reMatch input (.grp n a) p k
      = (reMatch input a p k).map (fun q => (q.1, (n, p, q.1) :: q.2)) := rfl

theorem reMatch_eps (input : List Char) (p : Nat) (k : Caps) :
    reMatch input .eps p k = [(p, k)] := rfl

theorem cls_slash_mem {input : List Char} {p : Nat} {k : Caps} {q : Nat × Caps}
    (hq : q ∈ reMatch input (.cls true ['/']) p k) :
    ∃ c, input[p]? = some c ∧ c ≠ '/' ∧ q = (p + 1, k) := by
  simp only [reMatch] at hq
  split at hq
  · next x hip =>
      split at hq
      · next hcond =>
          simp only [List.mem_singleton] at hq
          refine ⟨x, hip, ?_, hq⟩
          intro hx
          subst hx
          simp at hcond
      · simp at hq
  · simp at hq

theorem starLoop_cls_sound {input : List Char} {fuel p : Nat} {k : Caps}
    {q : Nat × Caps}
    (hq : q ∈ starLoop (reMatch input (.cls true ['/'])) fuel p k) :
    q.2 = k ∧ p ≤ q.1 ∧ countSl input p q.1 = 0 := by
  induction fuel generalizing p k with
  | zero =>
      simp only [starLoop, List.mem_singleton] at hq
      subst hq
      exact ⟨rfl, le_refl _, countSl_self input p⟩
  | succ n ih =>
      simp only [starLoop, List.mem_append, List.mem_flatMap, List.mem_filter] at hq
      rcases hq with ⟨q1, ⟨hq1mem, hq1prog⟩, hq1rec⟩ | hq2
      · obtain ⟨c, hip, hc, rfl⟩ := cls_slash_mem hq1mem
        obtain ⟨hk, hle, hcount⟩ := ih hq1rec
        refine ⟨hk, by omega, ?_⟩
        rw [countSl_add input (Nat.le_succ p) hle, countSl_single input hip, hcount,
          if_neg hc]
      · simp only [List.mem_singleton] at hq2
        subst hq2
        exact ⟨rfl, le_refl _, countSl_self input p⟩

theorem plus_cls_sound {input : List Char} {p : Nat} {k : Caps} {q : Nat × Caps}
    (hq : q ∈ reMatch input (.plus (.cls true ['/'])) p k) :
    q.2 = k ∧ p ≤ q.1 ∧ countSl input p q.1 = 0 := by
  have he : reMatch input (.plus (.cls true ['/'])) p k
      = (reMatch input (.cls true ['/']) p k).flatMap (fun q =>
          if p < q.1 then
            starLoop (reMatch input (.cls true ['/'])) (input.length + 1 - q.1) q.1 q.2
          else [q]) := rfl
  rw [he, List.mem_flatMap] at hq
  obtain ⟨q1, hq1, hq2⟩ := hq
  obtain ⟨c, hip, hc, rfl⟩ := cls_slash_mem hq1
  rw [if_pos (Nat.lt_succ_self p)] at hq2
  obtain ⟨hk, hle, hcount⟩ := starLoop_cls_sound hq2
  refine ⟨hk, by omega, ?_⟩
  rw [countSl_add input (Nat.le_succ p) hle, countSl_single input hip, hcount, if_neg hc]

theorem lit_sound {input : List Char} {c : Char} {p : Nat} {k : Caps} {q : Nat × Caps}
    (hq : q ∈ reMatch input (.lit c) p k) :
    input[p]? = some c ∧ q = (p + 1, k) := by
  simp only [reMatch] at hq
  split at hq
  · next x hip =>
      split at hq
      · next hx =>
          subst hx
          simp only [List.mem_singleton] at hq
          exact ⟨hip, hq⟩
      · simp at hq
  · simp at hq

theorem wrapToks_sound {input : List Char} (toks : List PTok) :
    ∀ (g : Nat) (tail : RE) (p : Nat) (k : Caps) (q : Nat × Caps),
      q ∈ reMatch input (wrapToks toks g tail) p k →
      ∃ m k2, q ∈ reMatch input tail m k2 ∧ p ≤ m
        ∧ countSl input p m = staticSlashes toks := by
  induction toks with
  | nil =>
      exact fun g tail p k q hq => ⟨p, k, hq, le_refl _, countSl_self input p⟩
  | cons t ts ih =>
      intro g tail p k q hq
      cases t with
      | lit c =>
          rw [show wrapToks (PTok.lit c :: ts) g tail
              = .seq (.lit c) (wrapToks ts g tail) from rfl,
            reMatch_seq, List.mem_flatMap] at hq
          obtain ⟨q1, hq1, hqrec⟩ := hq
          obtain ⟨hip, rfl⟩ := lit_sound hq1
          obtain ⟨m, k2, htail, hle, hcount⟩ := ih g tail (p + 1) k q hqrec
          refine ⟨m, k2, htail, by omega, ?_⟩
          rw [countSl_add input (Nat.le_succ p) hle, countSl_single input hip, hcount]
          simp only [staticSlashes]
      | hole n =>
          rw [show wrapToks (PTok.hole n :: ts) g tail
              = .seq (holeRE g) (wrapToks ts (g + 1) tail) from rfl,
            reMatch_seq, List.mem_flatMap] at hq
          obtain ⟨q1, hq1, hqrec⟩ := hq
          rw [show (holeRE g : RE) = .grp g (.seq (.plus (.cls true ['/'])) .eps) from rfl,
            reMatch_grp, List.mem_map] at hq1
          obtain ⟨q2, hq2, hq2e⟩ := hq1
          rw [reMatch_seq, List.mem_flatMap] at hq2
          obtain ⟨q3, hq3, hq3e⟩ := hq2
          rw [reMatch_eps, List.mem_singleton] at hq3e
          obtain ⟨hk3, hle3, hcount3⟩ := plus_cls_sound hq3
          subst hq3e
          subst hq2e
          obtain ⟨m, k2, htail, hle, hcount⟩ := ih (g + 1) tail q3.1 _ q hqrec
          refine ⟨m, k2, htail, by omega, ?_⟩
          rw [countSl_add input hle3 hle, hcount3, hcount]
          simp [staticSlashes]

/-! ## Helper lemmas: parsing a compiled plain template -/

theorem pAtom_plain (f g : Nat) (c : Char) (rest : List Char) (h : PlainLit c)
    (hdot : c ≠ '.') :
    parseStep (f + 1) .atom g (c :: rest) = some (.lit c, g, rest) := by
  simp only [PlainLit, metaChars, List.mem_cons, List.not_mem_nil, or_false, not_or] at h
  simp only [parseStep]
  split <;> simp_all

theorem pItem_eq (f g : Nat) (l : List Char) :
    parseStep (f + 1) .item g l
      = (match parseStep f .atom g l with
        | none => none
        | some (a, g1, l1) =>
            match l1 with
            | '*' :: rest => some (.star a, g1, rest)
            | '+' :: rest => some (.plus a, g1, rest)
            | '?' :: rest => some (.opt a, g1, rest)
            | _ => some (a, g1, l1)) := rfl

theorem pItem_plain (f g : Nat) (c : Char) (rest : List Char) (h : PlainLit c)
    (hdot : c ≠ '.') (hq : noQuantHead rest) :
    parseStep (f + 2) .item g (c :: rest) = some (.lit c, g, rest) := by
  rw [pItem_eq, pAtom_plain f g c rest h hdot]
  cases rest with
  | nil => exact absurd hq (by simp [noQuantHead])
  | cons d t =>
      obtain ⟨h1, h2, h3⟩ := hq
      split <;> simp_all
      split <;> simp_all

theorem pItem_dot (f g : Nat) (rest : List Char) (hq : noQuantHead rest) :
    parseStep (f + 2) .item g ('\\' :: '.' :: rest) = some (.lit '.', g, rest) := by
  rw [pItem_eq, show parseStep (f + 1) .atom g ('\\' :: '.' :: rest)
    = some (.lit '.', g, rest) from rfl]
  cases rest with
  | nil => exact absurd hq (by simp [noQuantHead])
  | cons d t =>
      obtain ⟨h1, h2, h3⟩ := hq
      split <;> simp_all
      split <;> simp_all

theorem pItem_bol (f g : Nat) (rest : List Char) (hq : noQuantHead rest) :
    parseStep (f + 2) .item g ('^' :: rest) = some (.bol, g, rest) := by
  rw [pItem_eq, show parseStep (f + 1) .atom g ('^' :: rest)
    = some (.bol, g, rest) from rfl]
  cases rest with
  | nil => exact absurd hq (by simp [noQuantHead])
  | cons d t =>
      obtain ⟨h1, h2, h3⟩ := hq
      split <;> simp_all
      split <;> simp_all

theorem pItem_hole_eq (f g : Nat) (rest : List Char) :
    parseStep (f + 7) .item g ('(' :: '[' :: '^' :: '/' :: ']' :: '+' :: ')' :: rest)
      = (match rest with
        | '*' :: r => some (.star (holeRE g), g + 1, r)
        | '+' :: r => some (.plus (holeRE g), g + 1, r)
        | '?' :: r => some (.opt (holeRE g), g + 1, r)
        | _ => some (holeRE g, g + 1, rest)) := rfl

theorem pItem_hole (f g : Nat) (rest : List Char) (hq : noQuantHead rest) :
    parseStep (f + 7) .item g ('(' :: '[' :: '^' :: '/' :: ']' :: '+' :: ')' :: rest)
      = some (holeRE g, g + 1, rest) := by
  rw [pItem_hole_eq]
  cases rest with
  | nil => exact absurd hq (by simp [noQuantHead])
  | cons d t =>
      obtain ⟨h1, h2, h3⟩ := hq
      split <;> simp_all

theorem pSeq_step (f g : Nat) (c : Char) (rest : List Char)
    (hne1 : c ≠ ')') (hne2 : c ≠ '|') :
    parseStep (f + 1) .sq g (c :: rest)
      = (match parseStep f .item g (c :: rest) with
        | none => none
        | some (r, g1, l1) =>
            match parseStep f .sq g1 l1 with
            | none => none
            | some (r2, g2, l2) => some (.seq r r2, g2, l2)) := by
  simp only [parseStep]
  split <;> simp_all

theorem noQuantHead_chunk (ts : List PTok) (rest : List Char)
    (hp : ∀ t ∈ ts, PlainTok t) (hq : noQuantHead rest) :
    noQuantHead (ts.flatMap escTok ++ rest) := by
  cases ts with
  | nil => exact hq
  | cons t ts' =>
      cases t with
      | lit c =>
          have hc := hp _ (List.mem_cons_self _ _)
          simp only [PlainTok, PlainLit, metaChars, List.mem_cons, List.not_mem_nil,
            or_false, not_or] at hc
          by_cases hdot : c = '.'
          · subst hdot
            exact ⟨by decide, by decide, by decide⟩
          · rw [show ((PTok.lit c :: ts').flatMap escTok ++ rest : List Char)
              = c :: (ts'.flatMap escTok ++ rest) from by simp [escTok, hdot]]
            exact ⟨hc.2.2.2.1, hc.2.2.2.2.1, hc.2.2.2.2.2.1⟩
      | hole n =>
          exact ⟨by decide, by decide, by decide⟩

theorem pSeq_dollar (f g : Nat) :
    parseStep (f + 4) .sq g ['$'] = some (.seq .eol .eps, g, []) := rfl

theorem escTok_length (toks : List PTok) : toks.length ≤ (toks.flatMap escTok).length := by
  induction toks with
  | nil => simp
  | cons t ts ih =>
      rw [show ((t :: ts).flatMap escTok : List Char) = escTok t ++ ts.flatMap escTok
        from rfl, List.length_append, List.length_cons]
      have ht : 1 ≤ (escTok t).length := by
        cases t with
        | lit c =>
            by_cases hdot : c = '.' <;> simp [escTok, hdot]
        | hole n => simp [escTok]
      omega

theorem pSeq_chunk (toks : List PTok) : ∀ (f g : Nat) (rest : List Char),
    (∀ t ∈ toks, PlainTok t) → noQuantHead rest → toks.length + 8 ≤ f →
    parseStep f .sq g (toks.flatMap escTok ++ rest)
      = (match parseStep (f - toks.length) .sq (g + holeCount toks) rest with
        | none => none
        | some (r, g2, l2) => some (wrapToks toks g r, g2, l2)) := by
  induction toks with
  | nil =>
      intro f g rest hp hq hf
      have e1 : (([] : List PTok).flatMap escTok ++ rest : List Char) = rest := rfl
      have e2 : f - ([] : List PTok).length = f := rfl
      have e3 : g + holeCount ([] : List PTok) = g := rfl
      rw [e1, e2, e3]
      cases hres : parseStep f .sq g rest with
      | none => rfl
      | some x =>
          obtain ⟨r, g2, l2⟩ := x
          rfl
  | cons t ts ih =>
      intro f g rest hp hq hf
      obtain ⟨f0, rfl⟩ : ∃ f0, f = f0 + 1 := ⟨f - 1, by omega⟩
      have hts : ∀ t' ∈ ts, PlainTok t' := fun t' h' => hp t' (List.mem_cons_of_mem _ h')
      have hqc : noQuantHead (ts.flatMap escTok ++ rest) := noQuantHead_chunk ts rest hts hq
      have hlen : ts.length + 8 ≤ f0 := by
        simp only [List.length_cons] at hf
        omega
      cases t with
      | lit c =>
          have hc : PlainLit c := hp _ (List.mem_cons_self _ _)
          have hcne : c ∉ metaChars := hc
          simp only [metaChars, List.mem_cons, List.not_mem_nil, or_false, not_or] at hcne
          by_cases hdot : c = '.'
          · subst hdot
            rw [show ((PTok.lit '.' :: ts).flatMap escTok ++ rest : List Char)
              = '\\' :: '.' :: (ts.flatMap escTok ++ rest) from rfl]
            rw [pSeq_step f0 g '\\' _ (by decide) (by decide)]
            obtain ⟨f1, rfl⟩ : ∃ f1, f0 = f1 + 2 := ⟨f0 - 2, by omega⟩
            rw [pItem_dot f1 g _ hqc]
            show (match parseStep (f1 + 2) PMode.sq g (ts.flatMap escTok ++ rest) with
              | none => none
              | some (r2, g2, l2) => some (RE.seq (RE.lit '.') r2, g2, l2)) = _
            rw [ih (f1 + 2) g rest hts hq (by omega)]
            have efuel : f1 + 2 + 1 - (PTok.lit '.' :: ts).length = f1 + 2 - ts.length := by
              simp only [List.length_cons]
              omega
            have ecnt : g + holeCount (PTok.lit '.' :: ts) = g + holeCount ts := by
              simp [holeCount, holeNames]
            rw [efuel, ecnt]
            cases parseStep (f1 + 2 - ts.length) .sq (g + holeCount ts) rest with
            | none => rfl
            | some x =>
                obtain ⟨r, g2, l2⟩ := x
                rfl
          · rw [show ((PTok.lit c :: ts).flatMap escTok ++ rest : List Char)
              = c :: (ts.flatMap escTok ++ rest) from by simp [escTok, hdot]]
            rw [pSeq_step f0 g c _ hcne.2.2.2.2.2.2.2.1 hcne.2.2.2.2.2.2.2.2.2.2.2.2]
            obtain ⟨f1, rfl⟩ : ∃ f1, f0 = f1 + 2 := ⟨f0 - 2, by omega⟩
            rw [pItem_plain f1 g c _ hc hdot hqc]
            show (match parseStep (f1 + 2) PMode.sq g (ts.flatMap escTok ++ rest) with
              | none => none
              | some (r2, g2, l2) => some (RE.seq (RE.lit c) r2, g2, l2)) = _
            rw [ih (f1 + 2) g rest hts hq (by omega)]
            have efuel : f1 + 2 + 1 - (PTok.lit c :: ts).length = f1 + 2 - ts.length := by
              simp only [List.length_cons]
              omega
            have ecnt : g + holeCount (PTok.lit c :: ts) = g + holeCount ts := by
              simp [holeCount, holeNames]
            rw [efuel, ecnt]
            cases parseStep (f1 + 2 - ts.length) .sq (g + holeCount ts) rest with
            | none => rfl
            | some x =>
                obtain ⟨r, g2, l2⟩ := x
                rfl
      | hole n =>
          rw [show ((PTok.hole n :: ts).flatMap escTok ++ rest : List Char)
            = '(' :: '[' :: '^' :: '/' :: ']' :: '+' :: ')' :: (ts.flatMap escTok ++ rest)
            from rfl]
          rw [pSeq_step f0 g '(' _ (by decide) (by decide)]
          obtain ⟨f1, rfl⟩ : ∃ f1, f0 = f1 + 7 := ⟨f0 - 7, by omega⟩
          rw [pItem_hole f1 g _ hqc]
          show (match parseStep (f1 + 7) PMode.sq (g + 1) (ts.flatMap escTok ++ rest) with
            | none => none
            | some (r2, g2, l2) => some (RE.seq (holeRE g) r2, g2, l2)) = _
          rw [ih (f1 + 7) (g + 1) rest hts hq (by omega)]
          have efuel : f1 + 7 + 1 - (PTok.hole n :: ts).length = f1 + 7 - ts.length := by
            simp only [List.length_cons]
            omega
          have ecnt : g + holeCount (PTok.hole n :: ts) = g + 1 + holeCount ts := by
            simp only [holeCount, holeNames, List.length_cons]
            omega
          rw [efuel, ecnt]
          cases parseStep (f1 + 7 - ts.length) .sq (g + 1 + holeCount ts) rest with
          | none => rfl
          | some x =>
              obtain ⟨r, g2, l2⟩ := x
              rfl

theorem pAlt_eq (f g : Nat) (l : List Char) :
    parseStep (f + 1) .alt g l
      = (match parseStep f .sq g l with
        | none => none
        | some (r, g1, l1) =>
            match l1 with
            | '|' :: rest =>
                (match parseStep f .alt g1 rest with
                | none => none
                | some (r2, g2, l2) => some (.alt r r2, g2, l2))
            | _ => some (r, g1, l1)) := rfl

/-- Parsing the compiled pattern of a plain template yields exactly the
anchored token regex. -/
theorem parseRegex_template (toks : List PTok) (h : ∀ t ∈ toks, PlainTok t) :
    parseRegex ('^' :: (toks.flatMap escTok ++ ['$']))
      = some (.seq .bol (wrapToks toks 1 (.seq .eol .eps))) := by
  have hq1 : noQuantHead (toks.flatMap escTok ++ ['$']) :=
    noQuantHead_chunk toks ['$'] h (by decide)
  have hlen : toks.length ≤ (toks.flatMap escTok).length := escTok_length toks
  unfold parseRegex
  set n := ('^' :: (toks.flatMap escTok ++ ['$']) : List Char).length with hn
  have hn2 : toks.length + 2 ≤ n := by
    rw [hn]
    simp only [List.length_cons, List.length_append, List.length_singleton]
    omega
  have hchunk : parseStep (4 * n + 6) .sq 1 (toks.flatMap escTok ++ ['$'])
      = some (wrapToks toks 1 (.seq .eol .eps), 1 + holeCount toks, []) := by
    rw [pSeq_chunk toks (4 * n + 6) 1 ['$'] h (by decide) (by omega)]
    rw [show (4 * n + 6 - toks.length : Nat) = (4 * n + 2 - toks.length) + 4 from by omega]
    rw [pSeq_dollar]
  have hseq : parseStep (4 * n + 7) .sq 1 ('^' :: (toks.flatMap escTok ++ ['$']))
      = some (.seq .bol (wrapToks toks 1 (.seq .eol .eps)), 1 + holeCount toks, []) := by
    rw [show (4 * n + 7 : Nat) = (4 * n + 6) + 1 from by omega,
      pSeq_step (4 * n + 6) 1 '^' _ (by decide) (by decide)]
    rw [show (4 * n + 6 : Nat) = (4 * n + 4) + 2 from by omega,
      pItem_bol (4 * n + 4) 1 _ hq1]
    show (match parseStep ((4 * n + 4) + 2) .sq 1 (toks.flatMap escTok ++ ['$']) with
      | none => none
      | some (r2, g2, l2) => some (RE.seq .bol r2, g2, l2)) = _
    rw [show ((4 * n + 4) + 2 : Nat) = 4 * n + 6 from by omega, hchunk]
  rw [show (4 * n + 8 : Nat) = (4 * n + 7) + 1 from by omega, pAlt_eq, hseq]

/-! ## Helper lemmas: the placeholder scan on a rendered template -/

theorem scanAux_collect (nm : List Char) : ∀ (buf rest : List Char), '}' ∉ nm →
    scanAux (some buf) (nm ++ '}' :: rest)
      = (if (buf.reverse ++ nm : List Char) = []
         then ((scanAux none rest).1, '{' :: '}' :: (scanAux none rest).2)
         else (String.mk (buf.reverse ++ nm) :: (scanAux none rest).1,
           "([^/]+)".data ++ (scanAux none rest).2)) := by
  induction nm with
  | nil =>
      intro buf rest hmem
      simp only [List.nil_append, List.append_nil]
      show (if ('}' : Char) = '}' then _ else _) = _
      rw [if_pos rfl]
      by_cases hb : buf.isEmpty
      · rw [if_pos hb, if_pos (by simpa [List.isEmpty_iff] using hb)]
      · rw [if_neg hb, if_neg (by simpa [List.isEmpty_iff] using hb)]
  | cons x nm' ih =>
      intro buf rest hmem
      have hx : x ≠ '}' := fun he => hmem (he ▸ List.mem_cons_self _ _)
      have hmem' : '}' ∉ nm' := fun hm => hmem (List.mem_cons_of_mem _ hm)
      show (if x = '}' then _ else scanAux (some (x :: buf)) (nm' ++ '}' :: rest)) = _
      rw [if_neg hx, ih (x :: buf) rest hmem']
      have he : ((x :: buf).reverse ++ nm' : List Char) = buf.reverse ++ x :: nm' := by
        simp
      rw [he]

theorem scanAux_render (toks : List PTok) (h : ∀ t ∈ toks, PlainTok t) :
    scanAux none (renderT toks) = (holeNames toks, toks.flatMap rawTok) := by
  induction toks with
  | nil => rfl
  | cons t ts ih =>
      have hts : ∀ t' ∈ ts, PlainTok t' := fun t' h' => h t' (List.mem_cons_of_mem _ h')
      cases t with
      | lit c =>
          have hc : PlainLit c := h _ (List.mem_cons_self _ _)
          have hbrace : c ≠ '{' := by
            simp only [PlainLit, metaChars, List.mem_cons, List.not_mem_nil, or_false,
              not_or] at hc
            exact hc.2.2.2.2.2.2.2.2.2.2.1
          show scanAux none (c :: renderT ts) = _
          show (if c = '{' then _ else ((scanAux none (renderT ts)).1,
            c :: (scanAux none (renderT ts)).2)) = _
          rw [if_neg hbrace, ih hts]
          rfl
      | hole n =>
          obtain ⟨hne, hmem, -⟩ : n.data ≠ [] ∧ '}' ∉ n.data ∧ '/' ∉ n.data :=
            h _ (List.mem_cons_self _ _)
          show scanAux (some []) (n.data ++ '}' :: renderT ts) = _
          rw [scanAux_collect n.data [] (renderT ts) hmem]
          rw [if_neg (by simpa using hne), ih hts]
          rfl

theorem escapeDots_raw (toks : List PTok) :
    escapeDots (toks.flatMap rawTok) = toks.flatMap escTok := by
  induction toks with
  | nil => rfl
  | cons t ts ih =>
      rw [show ((t :: ts).flatMap rawTok : List Char) = rawTok t ++ ts.flatMap rawTok
        from rfl,
        show ((t :: ts).flatMap escTok : List Char) = escTok t ++ ts.flatMap escTok
        from rfl,
        show escapeDots (rawTok t ++ ts.flatMap rawTok)
          = escapeDots (rawTok t) ++ escapeDots (ts.flatMap rawTok) from by
          unfold escapeDots
          exact List.flatMap_append _ _ _, ih]
      congr 1
      cases t with
      | lit c =>
          by_cases hdot : c = '.' <;> simp [escapeDots, rawTok, escTok, hdot]
      | hole n => rfl

/-! ## Helper lemmas: search and assembled template matching -/

theorem findSome?_eq_some_ex {α β : Type} {l : List α} {f : α → Option β} {b : β}
    (h : l.findSome? f = some b) : ∃ a ∈ l, f a = some b := by
  induction l with
  | nil => simp [List.findSome?] at h
  | cons x xs ih =>
      rw [List.findSome?_cons] at h
      cases hx : f x with
      | some c =>
          rw [hx] at h
          exact ⟨x, List.mem_cons_self _ _, by rw [hx]; exact h⟩
      | none =>
          rw [hx] at h
          obtain ⟨a, ha, hfa⟩ := ih h
          exact ⟨a, List.mem_cons_of_mem _ ha, hfa⟩

theorem findSome?_eq_none_all {α β : Type} {l : List α} {f : α → Option β}
    (h : ∀ a ∈ l, f a = none) : l.findSome? f = none := by
  induction l with
  | nil => rfl
  | cons x xs ih =>
      rw [List.findSome?_cons, h x (List.mem_cons_self _ _)]
      exact ih (fun a ha => h a (List.mem_cons_of_mem _ ha))

theorem matchPath_parsed {pattern S : String} {r : RE} {names : List String}
    (hp : parseRegex ('^' :: (escapeDots (scanAux none pattern.data).2 ++ ['$']))
      = some r)
    (hn : (scanAux none pattern.data).1 = names) :
    matchPath pattern S = some (matchRun r S.data names) := by
  unfold matchPath
  rw [hp, hn]

theorem matchRun_none {r : RE} {input : List Char} {names : List String}
    (hs : reSearch r input = none) : matchRun r input names = ⟨false, []⟩ := by
  unfold matchRun
  rw [hs]

theorem matchRun_some {r : RE} {input : List Char} {names : List String}
    {pc : Nat × Caps} (hs : reSearch r input = some pc) :
    matchRun r input names = ⟨true, buildParams input pc.2 1 names⟩ := by
  unfold matchRun
  rw [hs]

/-- For a plain template, `matchPath` either fails with empty parameters or
succeeds on a path with exactly the template's static number of slashes. -/
theorem matchPath_template (toks : List PTok) (S : String)
    (h : ∀ t ∈ toks, PlainTok t) :
    matchPath (String.mk (renderT toks)) S = some ⟨false, []⟩
    ∨ ∃ ps, matchPath (String.mk (renderT toks)) S = some ⟨true, ps⟩
        ∧ S.data.count '/' = staticSlashes toks := by
  have hscan : scanAux none ((String.mk (renderT toks)).data)
      = (holeNames toks, toks.flatMap rawTok) := scanAux_render toks h
  have hp : parseRegex ('^' ::
      (escapeDots (scanAux none ((String.mk (renderT toks)).data)).2 ++ ['$']))
      = some (.seq .bol (wrapToks toks 1 (.seq .eol .eps))) := by
    rw [hscan]
    rw [show ((holeNames toks, toks.flatMap rawTok).2 : List Char)
      = toks.flatMap rawTok from rfl]
    rw [escapeDots_raw toks, parseRegex_template toks h]
  have hnames : (scanAux none ((String.mk (renderT toks)).data)).1 = holeNames toks := by
    rw [hscan]
  have hmp := matchPath_parsed (S := S) hp hnames
  cases hs : reSearch (.seq .bol (wrapToks toks 1 (.seq .eol .eps))) S.data with
  | none =>
      left
      rw [hmp, matchRun_none hs]
  | some pc =>
      right
      refine ⟨buildParams S.data pc.2 1 (holeNames toks),
        by rw [hmp, matchRun_some hs], ?_⟩
      unfold reSearch at hs
      obtain ⟨p, hpmem, hf⟩ := findSome?_eq_some_ex hs
      cases hm : reMatch S.data (.seq .bol (wrapToks toks 1 (.seq .eol .eps))) p [] with
      | nil => rw [hm] at hf; cases hf
      | cons q qt =>
          rw [hm] at hf
          have hq : q ∈ reMatch S.data (.seq .bol (wrapToks toks 1 (.seq .eol .eps))) p [] := by
            rw [hm]
            exact List.mem_cons_self _ _
          rw [reMatch_seq, List.mem_flatMap] at hq
          obtain ⟨q0, hq0, hqW⟩ := hq
          simp only [reMatch] at hq0
          split at hq0
          · next hp0 =>
              simp only [List.mem_singleton] at hq0
              subst hq0
              subst hp0
              obtain ⟨m, k2, htail, hle, hcount⟩ := wrapToks_sound toks 1 _ 0 [] q hqW
              rw [reMatch_seq, List.mem_flatMap] at htail
              obtain ⟨qe, hqe, hqeps⟩ := htail
              simp only [reMatch] at hqe
              split at hqe
              · next hmlen =>
                  rw [← countSl_full S.data, ← hmlen]
                  exact hcount
              · simp at hqe
          · simp at hq0

/-- The rendered template has exactly its static slashes (placeholder names
contain no slash). -/
theorem renderT_count (toks : List PTok) (h : ∀ t ∈ toks, PlainTok t) :
    (renderT toks).count '/' = staticSlashes toks := by
  induction toks with
  | nil => rfl
  | cons t ts ih =>
      have hts : ∀ t' ∈ ts, PlainTok t' := fun t' h' => h t' (List.mem_cons_of_mem _ h')
      cases t with
      | lit c =>
          show (c :: renderT ts).count '/' = _
          rw [List.count_cons, ih hts]
          simp only [staticSlashes]
          by_cases hc : c = '/' <;> simp [hc] <;> omega
      | hole n =>
          obtain ⟨-, -, hslash⟩ : n.data ≠ [] ∧ '}' ∉ n.data ∧ '/' ∉ n.data :=
            h _ (List.mem_cons_self _ _)
          show ('{' :: (n.data ++ '}' :: renderT ts)).count '/' = _
          rw [List.count_cons, List.count_append, List.count_cons, ih hts]
          rw [List.count_eq_zero.mpr hslash]
          simp [staticSlashes]

/-! ## Claim C5 (amended) -/

/-- C5 amended: for templates whose literal characters avoid the regex
metacharacters other than the dot, and whose `{name}` placeholders have
non-empty names without `}` or `/`, a differing slash-separated segment
count forces `matchPath` to return `isMatch = false` with an empty
parameter mapping.  (The unrestricted claim fails: see the counterexample
with template `(/a)+`.) -/
theorem C5_amended_segment_mismatch (toks : List PTok) (S : String)
    (h : ∀ t ∈ toks, PlainTok t)
    (hseg : segmentCount (String.mk (renderT toks)) ≠ segmentCount S) :
    matchPath (String.mk (renderT toks)) S = some ⟨false, []⟩ := by
  rcases matchPath_template toks S h with hm | ⟨ps, hm, hcount⟩
  · exact hm
  · exfalso
    apply hseg
    unfold segmentCount
    rw [show (String.mk (renderT toks)).data = renderT toks from rfl,
      renderT_count toks h, hcount]

/-- C5 witness: the plain template `/users/{id}` (two slashes, three
segments) against the two-segment path `/users` fails with no parameters. -/
theorem C5_witness : matchPath "/users/{id}" "/users" = some ⟨false, []⟩ := by
  have h := C5_amended_segment_mismatch
    ("/users/".data.map PTok.lit ++ [PTok.hole "id"]) "/users"
    (by decide) (by decide)
  rw [show String.mk (renderT ("/users/".data.map PTok.lit ++ [PTok.hole "id"]))
    = "/users/{id}" from by decide] at h
  exact h

/-! ## Claim C4 (amended): literal-only templates match exactly themselves -/

theorem renderT_lits (cs : List Char) : renderT (cs.map PTok.lit) = cs := by
  induction cs with
  | nil => rfl
  | cons c ct ih =>
      show c :: renderT (ct.map PTok.lit) = c :: ct
      rw [ih]

theorem holeNames_lits (cs : List Char) : holeNames (cs.map PTok.lit) = [] := by
  induction cs with
  | nil => rfl
  | cons c ct ih =>
      show holeNames (ct.map PTok.lit) = []
      exact ih

theorem reMatch_wrapLits (input : List Char) (cs : List Char) :
    ∀ (g : Nat) (tail : RE) (p : Nat) (k : Caps),
      reMatch input (wrapToks (cs.map PTok.lit) g tail) p k
        = if (input.drop p).take cs.length = cs
          then reMatch input tail (p + cs.length) k else [] := by
  induction cs with
  | nil =>
      intro g tail p k
      simp [wrapToks]
  | cons c ct ih =>
      intro g tail p k
      rw [show wrapToks ((c :: ct).map PTok.lit) g tail
        = .seq (.lit c) (wrapToks (ct.map PTok.lit) g tail) from rfl, reMatch_seq]
      cases hip : input[p]? with
      | none =>
          have hdrop : input.drop p = [] :=
            List.drop_eq_nil_of_le (by
              by_contra hlt
              rw [List.getElem?_eq_getElem (by omega)] at hip
              cases hip)
          rw [show reMatch input (.lit c) p k = [] from by
            simp only [reMatch]; rw [hip]]
          rw [hdrop]
          rw [if_neg (by simp)]
          rfl
      | some x =>
          by_cases hxc : x = c
          · subst hxc
            rw [show reMatch input (.lit x) p k = [(p + 1, k)] from by
              simp only [reMatch]; rw [hip]; simp]
            have hlt : p < input.length := by
              by_contra hge
              rw [List.getElem?_eq_none (by omega)] at hip
              cases hip
            have hdrop : input.drop p = x :: input.drop (p + 1) := by
              rw [List.drop_eq_getElem_cons hlt]
              congr 1
              have := List.getElem?_eq_getElem hlt
              rw [this] at hip
              cases hip
              rfl
            rw [hdrop]
            rw [show ((x :: input.drop (p + 1)).take (x :: ct).length : List Char)
              = x :: (input.drop (p + 1)).take ct.length from rfl]
            rw [show ([(p + 1, k)].flatMap (fun q =>
                reMatch input (wrapToks (ct.map PTok.lit) g tail) q.1 q.2)
              : List (Nat × Caps))
              = reMatch input (wrapToks (ct.map PTok.lit) g tail) (p + 1) k from by
              simp]
            rw [ih g tail (p + 1) k]
            by_cases hcond : (input.drop (p + 1)).take ct.length = ct
            · rw [if_pos hcond, if_pos (by rw [hcond])]
              congr 1
              simp [List.length_cons]
              omega
            · rw [if_neg hcond, if_neg (by
                intro hcons
                exact hcond (by simpa using hcons))]
          · rw [show reMatch input (.lit c) p k = [] from by
              simp only [reMatch]; rw [hip]; simp [hxc]]
            have hlt : p < input.length := by
              by_contra hge
              rw [List.getElem?_eq_none (by omega)] at hip
              cases hip
            have hdrop : input.drop p = x :: input.drop (p + 1) := by
              rw [List.drop_eq_getElem_cons hlt]
              congr 1
              have := List.getElem?_eq_getElem hlt
              rw [this] at hip
              cases hip
              rfl
            rw [hdrop]
            rw [if_neg (by
              intro hcons
              rw [show ((x :: input.drop (p + 1)).take (c :: ct).length : List Char)
                = x :: (input.drop (p + 1)).take ct.length from rfl] at hcons
              exact hxc ((List.cons.injEq _ _ _ _).mp hcons).1)]
            rfl

/-- C4 amended: `matchPath` escapes only the dot, so for templates with no
placeholder whose characters avoid the remaining regex metacharacters (dots
allowed), every character — the dot included — matches only itself: the
match succeeds exactly on the identical path, always with an empty parameter
mapping.  (For other metacharacters the regex meaning survives: see the
counterexample.) -/
theorem C4_amended_literal_statics (cs : List Char) (h : ∀ c ∈ cs, PlainLit c)
    (S : String) :
    matchPath (String.mk cs) S = some ⟨(S == String.mk cs), []⟩ := by
  have htoks : ∀ t ∈ cs.map PTok.lit, PlainTok t := by
    intro t ht
    obtain ⟨c, hc, rfl⟩ := List.mem_map.mp ht
    exact h c hc
  have hrend : renderT (cs.map PTok.lit) = cs := renderT_lits cs
  have hscan : scanAux none cs
      = (holeNames (cs.map PTok.lit), (cs.map PTok.lit).flatMap rawTok) := by
    conv_lhs => rw [← hrend]
    exact scanAux_render (cs.map PTok.lit) htoks
  have hp : parseRegex ('^' :: (escapeDots (scanAux none (String.mk cs).data).2 ++ ['$']))
      = some (.seq .bol (wrapToks (cs.map PTok.lit) 1 (.seq .eol .eps))) := by
    rw [show (String.mk cs).data = cs from rfl, hscan,
      show ((holeNames (cs.map PTok.lit), (cs.map PTok.lit).flatMap rawTok).2 : List Char)
        = (cs.map PTok.lit).flatMap rawTok from rfl,
      escapeDots_raw, parseRegex_template (cs.map PTok.lit) htoks]
  have hnames : (scanAux none (String.mk cs).data).1 = ([] : List String) := by
    rw [show (String.mk cs).data = cs from rfl, hscan]
    exact holeNames_lits cs
  have hmp := matchPath_parsed (S := S) hp hnames
  have hre : ∀ p, reMatch S.data
      (.seq .bol (wrapToks (cs.map PTok.lit) 1 (.seq .eol .eps))) p []
      = if p = 0 ∧ S.data = cs then [(S.data.length, ([] : Caps))] else [] := by
    intro p
    rw [reMatch_seq]
    by_cases hp0 : p = 0
    · subst hp0
      rw [show reMatch S.data .bol 0 ([] : Caps) = [(0, [])] from by simp [reMatch]]
      rw [show ([((0 : Nat), ([] : Caps))].flatMap (fun q =>
          reMatch S.data (wrapToks (cs.map PTok.lit) 1 (.seq .eol .eps)) q.1 q.2)
          : List (Nat × Caps))
        = reMatch S.data (wrapToks (cs.map PTok.lit) 1 (.seq .eol .eps)) 0 [] from by
          simp]
      rw [reMatch_wrapLits S.data cs 1 (.seq .eol .eps) 0 [], List.drop_zero]
      by_cases hcs : S.data.take cs.length = cs
      · rw [if_pos hcs, reMatch_seq]
        rw [show reMatch S.data .eol (0 + cs.length) ([] : Caps)
          = if 0 + cs.length = S.data.length then [(0 + cs.length, ([] : Caps))]
            else [] from rfl]
        by_cases hlen : cs.length = S.data.length
        · have hSeq : S.data = cs :=
            calc S.data = S.data.take S.data.length := (List.take_length _).symm
              _ = S.data.take cs.length := by rw [hlen]
              _ = cs := hcs
          rw [if_pos (by omega), if_pos ⟨rfl, hSeq⟩]
          rw [show (0 + cs.length : Nat) = S.data.length from by omega]
          simp [reMatch_eps]
        · rw [if_neg (by omega), if_neg (by rintro ⟨-, rfl⟩; exact hlen rfl)]
          rfl
      · rw [if_neg hcs,
          if_neg (by rintro ⟨-, rfl⟩; exact hcs (by rw [List.take_length]))]
    · rw [show reMatch S.data .bol p ([] : Caps) = [] from by simp [reMatch, hp0]]
      rw [if_neg (by rintro ⟨h0, -⟩; exact hp0 h0)]
      rfl
  by_cases hS : S.data = cs
  · have hsearch : reSearch
        (.seq .bol (wrapToks (cs.map PTok.lit) 1 (.seq .eol .eps))) S.data
        = some (0, []) := by
      unfold reSearch
      rw [List.range_succ_eq_map, List.findSome?_cons, hre 0, if_pos ⟨rfl, hS⟩]
    rw [hmp, matchRun_some hsearch]
    have hSe : S = String.mk cs := by
      conv_lhs => rw [show S = String.mk S.data from rfl]
      rw [hS]
    rw [hSe, show ((String.mk cs == String.mk cs) : Bool) = true from by simp]
    rfl
  · have hsearch : reSearch
        (.seq .bol (wrapToks (cs.map PTok.lit) 1 (.seq .eol .eps))) S.data
        = none := by
      unfold reSearch
      apply findSome?_eq_none_all
      intro p hp'
      rw [hre p, if_neg (by rintro ⟨-, hd⟩; exact hS hd)]
    rw [hmp, matchRun_none hsearch]
    have hne : (S == String.mk cs) = false := by
      rw [beq_eq_false_iff_ne]
      intro he
      exact hS (by rw [he])
    rw [hne]

/-- C4 witness: the template `/v1.0/users` (literal dot) matches itself and
does not match `/v1X0/users`. -/
theorem C4_witness :
    matchPath "/v1.0/users" "/v1.0/users" = some ⟨true, []⟩
    ∧ matchPath "/v1.0/users" "/v1X0/users" = some ⟨false, []⟩ := by
  have h1 := C4_amended_literal_statics ("/v1.0/users".data) (by decide) "/v1.0/users"
  have h2 := C4_amended_literal_statics ("/v1.0/users".data) (by decide) "/v1X0/users"
  rw [show ("/v1.0/users" == String.mk ("/v1.0/users".data)) = true from by decide] at h1
  rw [show ("/v1X0/users" == String.mk ("/v1.0/users".data)) = false from by decide] at h2
  exact ⟨h1, h2⟩
